import Mathlib

/-!
Shallow embedding of the mdtree core (src/lib.rs): the raw-pointer general
tree `GenTree`, the heading-list builder `construct`, and the renderer
(`pretty_print` / `preorder`).  Raw pointers are modelled as indices into an
allocation arena (`Heap`); `Box::into_raw` appends a node and returns its
index.  Panics (`expect` / `unwrap`) are modelled as `Except.error`.
Output produced by `println!` is modelled as the list of printed lines.
-/

namespace Mdtree

/-- Heading payload: a heading level and display title (`struct Heading`). -/
structure Heading where
  level : Nat
  title : String
deriving DecidableEq

/-- Position in the tree: `type Pos<T> = Option<*mut Node<T>>`; the pointer is
an arena index. -/
abbrev Pos := Option Nat

/-- Tree node: `struct Node<T> { parent, children, data }`. -/
structure ArenaNode where
  parent : Pos
  children : List Pos
  data : Option Heading
deriving DecidableEq

/-- The allocation arena standing in for the Rust heap. -/
abbrev Heap := List ArenaNode

/-- Junk node returned for a dangling index.  Dereferencing such an index would
be undefined behavior in the source; every access reasoned about below stays in
bounds. -/
def junkNode : ArenaNode := ⟨none, [], none⟩

/-- Reads the node at address `i` (a pointer dereference). -/
def getNode (h : Heap) (i : Nat) : ArenaNode := h.getD i junkNode

/-- Overwrites the node at address `i` (a pointer write). -/
def setNode (h : Heap) (i : Nat) (nd : ArenaNode) : Heap := h.set i nd

/-- Models `Node::build` + `Box::into_raw`: allocates a fresh parentless,
childless node and returns its address. -/
def alloc (h : Heap) (d : Option Heading) : Heap × Nat :=
  (h ++ [⟨none, [], d⟩], h.length)

/-- `GenTree::get` (and `Node::get`): immutable data at a position. -/
def get (h : Heap) (node : Pos) : Option Heading :=
  match node with
  | some n => (getNode h n).data
  | none => none

/-- `GenTree::parent`: `Some((*n).parent)` for a present position, `None` for an
absent one.  Note the two layers: the parent of the root comes back as
`some none`, a present answer holding the absent position. -/
def parent (h : Heap) (node : Pos) : Option Pos :=
  match node with
  | some n => some ((getNode h n).parent)
  | none => none

/-- `GenTree::add_child`: pushes `node` onto the ancestor's child list and sets
the node's parent link; the size counter grows by one even when `ancestor` is
absent. -/
def add_child (h : Heap) (size : Nat) (ancestor node : Pos) : Heap × Nat :=
  match ancestor with
  | some p =>
    let h1 := setNode h p { getNode h p with children := (getNode h p).children ++ [node] }
    let h2 := match node with
      | some n => setNode h1 n { getNode h1 n with parent := ancestor }
      | none => h1
    (h2, size + 1)
  | none => (h, size + 1)

/-- State of `construct`'s single pass: the tree under construction (root
pointer and size counter) plus the two cursors. -/
structure BuildState where
  heap : Heap
  root : Pos
  size : Nat
  level_cursor : Nat
  position_cursor : Pos
deriving DecidableEq

/-- `GenTree::new()` together with the cursor initialization at the top of
`construct`. -/
def initState (level : Nat) : BuildState :=
  { heap := [⟨none, [], some ⟨0, "ROOT"⟩⟩]
  , root := some 0
  , size := 1
  , level_cursor := level
  , position_cursor := some 0 }

/-- The `for _ in 1..diff` loop of `construct`'s gap case, parameterized by its
iteration count: allocate a `"[]"`, level-0 placeholder, attach it under the
cursor, descend onto it and bump the level cursor. -/
def bridgeLoop : Nat → Heap → Nat → Pos → Nat → Heap × Nat × Pos × Nat
  | 0, h, size, pc, lc => (h, size, pc, lc)
  | k+1, h, size, pc, lc =>
    let al := alloc h (some ⟨0, "[]"⟩)
    let ac := add_child al.1 size pc (some al.2)
    bridgeLoop k ac.1 ac.2 (some al.2) (lc + 1)

/-- The `for _ in 0..diff` loop of `construct`'s ascend case: each step replaces
the cursor by its parent — `.expect("None parent")` panics when the position is
absent — and decrements the level cursor. -/
def ascendLoop (h : Heap) : Nat → Pos → Nat → Except String (Pos × Nat)
  | 0, pc, lc => .ok (pc, lc)
  | k+1, pc, lc =>
    match parent h pc with
    | none => .error "None parent"
    | some p2 => ascendLoop h k p2 (lc - 1)

/-- One iteration of `construct`'s loop over the input list: the four-way case
dispatch on the incoming level against the level cursor, followed by the common
`position_cursor = node` update. -/
def constructStep (st : BuildState) (e : Heading) : Except String BuildState :=
  let current_level := e.level
  let al := alloc st.heap (some e)
  let node : Pos := some al.2
  if current_level = st.level_cursor + 1 then
    let ac := add_child al.1 st.size st.position_cursor node
    match get ac.1 node with
    | none => .error "unwrap"
    | some d =>
      .ok { heap := ac.1, root := st.root, size := ac.2
          , level_cursor := d.level, position_cursor := node }
  else if current_level > st.level_cursor + 1 then
    let diff := current_level - st.level_cursor
    let br := bridgeLoop (diff - 1) al.1 st.size st.position_cursor st.level_cursor
    let ac := add_child br.1 br.2.1 br.2.2.1 node
    match get ac.1 node with
    | none => .error "unwrap"
    | some d =>
      .ok { heap := ac.1, root := st.root, size := ac.2
          , level_cursor := d.level, position_cursor := node }
  else if current_level = st.level_cursor then
    match parent al.1 st.position_cursor with
    | none => .error "No parent"
    | some par =>
      let ac := add_child al.1 st.size par node
      .ok { heap := ac.1, root := st.root, size := ac.2
          , level_cursor := st.level_cursor, position_cursor := node }
  else
    let diff := st.level_cursor - current_level
    match parent al.1 st.position_cursor with
    | none => .error "No parent"
    | some pc1 =>
      match ascendLoop al.1 diff pc1 st.level_cursor with
      | .error s => .error s
      | .ok pr =>
        let ac := add_child al.1 st.size pr.1 node
        match get ac.1 node with
        | none => .error "unwrap"
        | some d =>
          .ok { heap := ac.1, root := st.root, size := ac.2
              , level_cursor := d.level, position_cursor := node }

/-- The `for e in data` loop of `construct` over the remaining input. -/
def constructGo (st : BuildState) : List Heading → Except String BuildState
  | [] => .ok st
  | e :: rest =>
    match constructStep st e with
    | .error s => .error s
    | .ok st' => constructGo st' rest

/-- `construct(level, data)`: builds a tree of headings from the flat list. -/
def construct (level : Nat) (data : List Heading) : Except String BuildState :=
  constructGo (initState level) data

/-- Loop of `GenTree::_depth`: climb parent links, counting, until the cursor
equals the root pointer; the `?` operator propagates a failed parent lookup as
`none`.  Fuel bounds the iteration count; every use below supplies enough. -/
def depthAux (h : Heap) (root : Pos) (fuel : Nat) (cursor : Pos) (d : Nat) : Option Nat :=
  match fuel with
  | 0 => none
  | f+1 =>
    if cursor = root then some d
    else
      match parent h cursor with
      | none => none
      | some c => depthAux h root f c (d + 1)

/-- `GenTree::_depth`, starting the counter at 1. -/
def depthOf (h : Heap) (root : Pos) (fuel : Nat) (node : Pos) : Option Nat :=
  depthAux h root fuel node 1

mutual

/-- `GenTree::_height`: 1 plus the running maximum of the children's heights;
`Some(1)` for a childless or absent position.  Fuel bounds recursion depth;
`none` stands both for exhausted fuel and for the `expect("uh oh")` panic on an
absent child entry, neither of which occurs on the trees reasoned about. -/
def heightOf (h : Heap) (fuel : Nat) (node : Pos) : Option Nat :=
  match fuel with
  | 0 => none
  | f+1 =>
    match node with
    | none => some 1
    | some n =>
      match heightFold h f ((getNode h n).children) 0 with
      | none => none
      | some m => some (m + 1)
termination_by (fuel, 0)

/-- The `for e in children` fold inside `_height`, accumulating the running
maximum. -/
def heightFold (h : Heap) (f : Nat) (l : List Pos) (acc : Nat) : Option Nat :=
  match l with
  | [] => some acc
  | e :: rest =>
    match e with
    | none => none
    | some c =>
      match heightOf h f (some c) with
      | none => none
      | some v => heightFold h f rest (max acc v)
termination_by (f, l.length + 1)

end

/-- The child title lookup `Node::get(*e).unwrap()` in `preorder`; absent data
(a panic in the source, unreachable on built trees) is rendered as `""`. -/
def childTitle (h : Heap) (e : Pos) : String :=
  match get h e with
  | some d => d.title
  | none => ""

/-- The children of a position; `[]` for an absent position (the source would
already have panicked on the title lookup there). -/
def childrenOf (h : Heap) (e : Pos) : List Pos :=
  match e with
  | some p => (getNode h p).children
  | none => []

/-- The `for e in children` loop of `preorder`, one output line per visited
child: the final child gets the `└──` connector and a plain continuation, any
earlier child the `├──` connector and a `│` guide continuation (the source
stores these glyphs as mojibake bytes; the characters they denote are used
here).  Fuel bounds the descent depth. -/
def preorderAux (h : Heap) (fuel : Nat) (l : List Pos) (pfx : String) : List String :=
  match l with
  | [] => []
  | e :: rest =>
    if rest.isEmpty then
      ("\t" ++ pfx ++ "└── " ++ childTitle h e) ::
        (match fuel with
         | 0 => []
         | f+1 => preorderAux h f (childrenOf h e) (pfx ++ "    "))
    else
      (("\t" ++ pfx ++ "├── " ++ childTitle h e) ::
        (match fuel with
         | 0 => []
         | f+1 => preorderAux h f (childrenOf h e) (pfx ++ "│   "))) ++
      preorderAux h fuel rest pfx
termination_by (fuel, l.length)

/-- `preorder`: emits the lines for everything below the position; an absent
position prints a diagnostic line. -/
def preorder (h : Heap) (fuel : Nat) (position : Pos) (pfx : String) : List String :=
  match position with
  | some _ => preorderAux h fuel (childrenOf h position) pfx
  | none => ["Not a valid position"]

/-- `pretty_print`: document banner plus either the `[]` empty-tree marker or a
`│` guide line, the preorder listing and a blank closing line.  Output is the
list of printed lines (each `println!` contributes its embedded newlines). -/
def pretty_print (h : Heap) (fuel : Nat) (name : String) (position : Pos) : List String :=
  match position with
  | some p =>
    if (getNode h p).children.length = 0 then
      ["📄 " ++ name, "\t[]", ""]
    else
      ("📄 " ++ name) :: "\t│" :: (preorder h fuel position "" ++ [""])
  | none => []

/-- Modelled from the spec's words (claim C3's count): the number of placeholder
nodes the gap case inserts, read off by replaying the level sequence. -/
def phCount (cursor : Nat) : List Heading → Nat
  | [] => 0
  | e :: rest =>
    (if cursor + 1 < e.level then e.level - cursor - 1 else 0) + phCount e.level rest

/-- Modelled from the spec's words (claim C7's precondition): a level sequence
with no gaps (each level at most one above the running cursor) and no drops
below `base + 1`. -/
def validLevels (base cursor : Nat) : List Heading → Bool
  | [] => true
  | e :: rest => (base + 1 ≤ e.level) && (e.level ≤ cursor + 1) && validLevels base e.level rest

/-- Rendering the same tree twice, exactly as a caller would. -/
def renderTwice (h : Heap) (fuel : Nat) (name : String) (position : Pos) :
    List String × List String :=
  (pretty_print h fuel name position, pretty_print h fuel name position)

/-! ### Arena access lemmas -/

theorem getNode_eq_getElem (h : Heap) (i : Nat) : getNode h i = (h[i]?).getD junkNode :=
  List.getD_eq_getElem?_getD h i junkNode

theorem length_setNode (h : Heap) (i : Nat) (nd : ArenaNode) :
    (setNode h i nd).length = h.length := List.length_set h i nd

theorem getNode_set_self {h : Heap} {i : Nat} (nd : ArenaNode) (hi : i < h.length) :
    getNode (setNode h i nd) i = nd := by
  simp [getNode_eq_getElem, setNode, List.getElem?_set_self hi]

theorem getNode_set_ne {i j : Nat} (h : Heap) (nd : ArenaNode) (hne : i ≠ j) :
    getNode (setNode h i nd) j = getNode h j := by
  simp [getNode_eq_getElem, setNode, List.getElem?_set_ne hne]

theorem getNode_append_lt {h : Heap} {j : Nat} (x : ArenaNode) (hj : j < h.length) :
    getNode (h ++ [x]) j = getNode h j := by
  simp [getNode_eq_getElem, List.getElem?_append, hj]

theorem getNode_append_self (h : Heap) (x : ArenaNode) :
    getNode (h ++ [x]) h.length = x := by
  simp [getNode_eq_getElem]

theorem getNode_out {h : Heap} {j : Nat} (hj : h.length ≤ j) : getNode h j = junkNode := by
  simp [getNode_eq_getElem, List.getElem?_eq_none hj]

/-! ### Claim C5: add_child size and frame behavior -/

/-- C5. Every `add_child` call increments the size counter by exactly 1,
unconditionally — including when the ancestor position is absent — and when the
ancestor is absent the arena is untouched: no children list and no parent link
of any node changes. -/
theorem add_child_size_and_frame (h : Heap) (size : Nat) (ancestor node : Pos) :
    (add_child h size ancestor node).2 = size + 1 ∧
    (ancestor = none → (add_child h size ancestor node).1 = h) := by
  constructor
  · cases ancestor with
    | none => rfl
    | some p => cases node <;> rfl
  · intro hanc; subst hanc; rfl

/-- Witness for C5 at a concrete call: attaching under the absent position on
the freshly created tree bumps the size and leaves the arena unchanged. -/
theorem add_child_size_and_frame_witness :
    (add_child (initState 0).heap 1 none (some 0)).2 = 1 + 1 ∧
    (add_child (initState 0).heap 1 none (some 0)).1 = (initState 0).heap :=
  ⟨(add_child_size_and_frame (initState 0).heap 1 none (some 0)).1,
   (add_child_size_and_frame (initState 0).heap 1 none (some 0)).2 rfl⟩

/-! ### Claim C4, counterexample part: parent of the root is not "nothing" -/

/-- C4 counterexample. On the freshly created tree, `parent` applied to the
root position does not return nothing: it returns `some none`, a present answer
that wraps the absent position.  (This is why `.expect("No parent")` succeeds
on the root inside `construct`.) -/
theorem parent_of_root_is_some_none :
    parent (initState 0).heap (initState 0).root = some none ∧
    parent (initState 0).heap (initState 0).root ≠ none :=
  ⟨rfl, by decide⟩

/-! ### Claim C6: a first heading at base level is silently lost -/

/-- C6. When the first heading's level equals `base_level`, the sibling case
fires with the root as cursor; `parent(root)` yields `some none`, which passes
the `expect`, so the node is attached under the absent position: the root's
children stay empty, the new node's parent link stays `none`, and yet the size
counter still becomes 2.  The heading is silently lost, not rejected. -/
theorem first_heading_at_base_level_lost (base : Nat) (ttl : String) :
    construct base [⟨base, ttl⟩]
      = .ok { heap := [⟨none, [], some ⟨0, "ROOT"⟩⟩, ⟨none, [], some ⟨base, ttl⟩⟩]
            , root := some 0, size := 2, level_cursor := base
            , position_cursor := some 1 } := by
  have h1 : ¬ (base = base + 1) := by omega
  have h2 : ¬ (base > base + 1) := by omega
  simp [construct, constructGo, constructStep, h1, h2, initState, alloc, parent,
    getNode, junkNode, add_child, List.getD]

/-! ### Claim C1: an ascend whose target is above the root -/

/-- C1, code evaluation at the failing input.  With `base_level = 1` and input
`[(2, "A"), (1, "B")]`, processing `B` takes the ascend case and its target is
the root's parent — a position above the root.  The builder does not fail: it
returns `Ok`, `B` (node 2) is attached to no node's children and keeps parent
link `none`, yet the size counter still counts it (size 3).  The heading is
silently discarded instead of surfacing a structural error. -/
theorem ascend_above_root_silently_discards :
    construct 1 [⟨2, "A"⟩, ⟨1, "B"⟩]
      = .ok { heap := [⟨none, [some 1], some ⟨0, "ROOT"⟩⟩,
                       ⟨some 0, [], some ⟨2, "A"⟩⟩,
                       ⟨none, [], some ⟨1, "B"⟩⟩]
            , root := some 0, size := 3, level_cursor := 1
            , position_cursor := some 2 } := by
  rfl

/-! ### Claim C2: the gap case bridges with placeholders -/

/-- Full characterization of `bridgeLoop n` run from a present, in-bounds
cursor `p`: it appends `n` placeholder nodes (title `"[]"`, level 0) chained
each under the previous one, hangs the first under `p`, moves the cursor to the
last placeholder, and bumps size and level cursor by `n`; every other node is
untouched. -/
theorem bridgeLoop_spec (n : Nat) :
    ∀ (h : Heap) (size p lc : Nat), p < h.length →
    ((bridgeLoop n h size (some p) lc).1.length = h.length + n) ∧
    ((bridgeLoop n h size (some p) lc).2.1 = size + n) ∧
    ((bridgeLoop n h size (some p) lc).2.2.2 = lc + n) ∧
    ((bridgeLoop n h size (some p) lc).2.2.1
        = if n = 0 then some p else some (h.length + n - 1)) ∧
    (∀ j, j ≠ p → j < h.length →
        getNode (bridgeLoop n h size (some p) lc).1 j = getNode h j) ∧
    (0 < n → getNode (bridgeLoop n h size (some p) lc).1 p
        = { getNode h p with children := (getNode h p).children ++ [some h.length] }) ∧
    (n = 0 → (bridgeLoop n h size (some p) lc).1 = h) ∧
    (∀ k, k < n →
        (getNode (bridgeLoop n h size (some p) lc).1 (h.length + k)).data = some ⟨0, "[]"⟩) ∧
    (∀ k, k < n →
        (getNode (bridgeLoop n h size (some p) lc).1 (h.length + k)).parent
          = if k = 0 then some p else some (h.length + k - 1)) ∧
    (∀ k, k < n →
        (getNode (bridgeLoop n h size (some p) lc).1 (h.length + k)).children
          = if k = n - 1 then [] else [some (h.length + k + 1)]) := by
  induction n with
  | zero =>
    intro h size p lc hp
    refine ⟨rfl, rfl, rfl, rfl, fun j _ _ => rfl, fun h0 => absurd h0 (by omega),
      fun _ => rfl, fun k hk => absurd hk (by omega), fun k hk => absurd hk (by omega),
      fun k hk => absurd hk (by omega)⟩
  | succ m ih =>
    intro h size p lc hp
    have hpL : p ≠ h.length := by omega
    have step : bridgeLoop (m+1) h size (some p) lc
        = bridgeLoop m
            (add_child (alloc h (some ⟨0, "[]"⟩)).1 size (some p)
              (some (alloc h (some ⟨0, "[]"⟩)).2)).1
            (size + 1) (some h.length) (lc + 1) := rfl
    have hlen1 : p < (h ++ [(⟨none, [], some ⟨0, "[]"⟩⟩ : ArenaNode)]).length := by
      simp only [List.length_append, List.length_cons, List.length_nil]
      omega
    set h2 := (add_child (alloc h (some ⟨0, "[]"⟩)).1 size (some p)
        (some (alloc h (some ⟨0, "[]"⟩)).2)).1 with hh2
    have hl2 : h2.length = h.length + 1 := by
      rw [hh2]
      simp only [add_child, alloc, setNode, List.length_set, List.length_append,
        List.length_cons, List.length_nil]
    have g1 : ∀ j, j ≠ p → j < h.length → getNode h2 j = getNode h j := by
      intro j hjp hj
      rw [hh2]
      simp only [add_child, alloc]
      rw [getNode_set_ne _ _ (by omega : h.length ≠ j),
        getNode_set_ne _ _ (Ne.symm hjp), getNode_append_lt _ hj]
    have g2 : getNode h2 p
        = { getNode h p with children := (getNode h p).children ++ [some h.length] } := by
      have hap : getNode (h ++ [(⟨none, [], some ⟨0, "[]"⟩⟩ : ArenaNode)]) p = getNode h p :=
        getNode_append_lt _ hp
      rw [hh2]
      simp only [add_child, alloc]
      rw [getNode_set_ne _ _ (Ne.symm hpL), getNode_set_self _ hlen1, hap]
    have g3 : getNode h2 h.length = ⟨some p, [], some ⟨0, "[]"⟩⟩ := by
      rw [hh2]
      simp only [add_child, alloc]
      rw [getNode_set_self _ (by rw [length_setNode]; simp),
        getNode_set_ne _ _ hpL, getNode_append_self]
    obtain ⟨i1, i2, i3, i4, i5, i6, i7, i8, i9, i10⟩ :=
      ih h2 (size + 1) h.length (lc + 1) (by omega)
    rw [step]
    refine ⟨by omega, by omega, by omega, ?_, ?_, ?_, ?_, ?_, ?_, ?_⟩
    · rw [i4]
      rcases Nat.eq_zero_or_pos m with hm | hm
      · subst hm; simp
      · rw [if_neg (by omega), if_neg (by omega)]
        congr 1
        omega
    · intro j hjp hj
      rw [i5 j (by omega) (by omega), g1 j hjp hj]
    · intro _
      rw [i5 p hpL (by omega), g2]
    · intro hm0; omega
    · intro k hk
      rcases Nat.eq_zero_or_pos k with hk0 | hk0
      · subst hk0
        simp only [Nat.add_zero]
        rcases Nat.eq_zero_or_pos m with hm | hm
        · subst hm
          rw [i7 rfl, g3]
        · rw [i6 hm, g3]
      · have hk' : k - 1 < m := by omega
        have := i8 (k - 1) hk'
        rw [show h2.length + (k - 1) = h.length + k by omega] at this
        exact this
    · intro k hk
      rcases Nat.eq_zero_or_pos k with hk0 | hk0
      · subst hk0
        simp only [Nat.add_zero]
        rcases Nat.eq_zero_or_pos m with hm | hm
        · subst hm
          rw [i7 rfl, g3]
          simp
        · rw [i6 hm, g3]
          simp
      · have hk' : k - 1 < m := by omega
        have := i9 (k - 1) hk'
        rw [show h2.length + (k - 1) = h.length + k by omega] at this
        rw [this, if_neg (by omega : ¬ k = 0)]
        by_cases hk1 : k - 1 = 0
        · rw [if_pos hk1]
          congr 1
          omega
        · rw [if_neg hk1]
    · intro k hk
      rcases Nat.eq_zero_or_pos k with hk0 | hk0
      · subst hk0
        simp only [Nat.add_zero]
        rcases Nat.eq_zero_or_pos m with hm | hm
        · subst hm
          rw [i7 rfl, g3]
          simp
        · rw [i6 hm, g3]
          rw [if_neg (by omega : ¬ (0:Nat) = m + 1 - 1), hl2]
          simp
      · have hk' : k - 1 < m := by omega
        have := i10 (k - 1) hk'
        rw [show h2.length + (k - 1) = h.length + k by omega] at this
        rw [this]
        by_cases hlast : k = m + 1 - 1
        · rw [if_pos (by omega : k - 1 = m - 1), if_pos hlast]
        · rw [if_neg (by omega : ¬ k - 1 = m - 1), if_neg hlast]

/-- Branch lemma: the child case of `constructStep`. -/
theorem constructStep_child (st : BuildState) (e : Heading)
    (hc : e.level = st.level_cursor + 1) :
    constructStep st e =
      (let al := alloc st.heap (some e)
       let ac := add_child al.1 st.size st.position_cursor (some al.2)
       match get ac.1 (some al.2) with
       | none => .error "unwrap"
       | some d =>
         .ok { heap := ac.1, root := st.root, size := ac.2,
               level_cursor := d.level, position_cursor := some al.2 }) := by
  simp only [constructStep, hc, if_true, ite_true]

/-- Branch lemma: the gap case of `constructStep`. -/
theorem constructStep_gap (st : BuildState) (e : Heading)
    (hc2 : st.level_cursor + 1 < e.level) :
    constructStep st e =
      (let al := alloc st.heap (some e)
       let br := bridgeLoop (e.level - st.level_cursor - 1) al.1 st.size
         st.position_cursor st.level_cursor
       let ac := add_child br.1 br.2.1 br.2.2.1 (some al.2)
       match get ac.1 (some al.2) with
       | none => .error "unwrap"
       | some d =>
         .ok { heap := ac.1, root := st.root, size := ac.2,
               level_cursor := d.level, position_cursor := some al.2 }) := by
  have hc1 : ¬ (e.level = st.level_cursor + 1) := by omega
  simp only [constructStep, hc1, hc2, gt_iff_lt, if_false, if_true, ite_false, ite_true]

/-- Branch lemma: the sibling case of `constructStep`.  Note that the level
cursor is left unchanged by this case. -/
theorem constructStep_sibling (st : BuildState) (e : Heading)
    (hc : e.level = st.level_cursor) :
    constructStep st e =
      (let al := alloc st.heap (some e)
       match parent al.1 st.position_cursor with
       | none => .error "No parent"
       | some par =>
         let ac := add_child al.1 st.size par (some al.2)
         .ok { heap := ac.1, root := st.root, size := ac.2,
               level_cursor := st.level_cursor, position_cursor := some al.2 }) := by
  have hc1 : ¬ (st.level_cursor = st.level_cursor + 1) := by omega
  have hc2 : ¬ (st.level_cursor > st.level_cursor + 1) := by omega
  simp only [constructStep, hc, hc1, hc2, gt_iff_lt, if_false, if_true, ite_false, ite_true]

/-- Branch lemma: the ascend case of `constructStep`. -/
theorem constructStep_ascend (st : BuildState) (e : Heading)
    (hc : e.level < st.level_cursor) :
    constructStep st e =
      (let al := alloc st.heap (some e)
       match parent al.1 st.position_cursor with
       | none => .error "No parent"
       | some pc1 =>
         match ascendLoop al.1 (st.level_cursor - e.level) pc1 st.level_cursor with
         | .error s => .error s
         | .ok pr =>
           let ac := add_child al.1 st.size pr.1 (some al.2)
           match get ac.1 (some al.2) with
           | none => .error "unwrap"
           | some d =>
             .ok { heap := ac.1, root := st.root, size := ac.2,
                   level_cursor := d.level, position_cursor := some al.2 }) := by
  have hc1 : ¬ (e.level = st.level_cursor + 1) := by omega
  have hc2 : ¬ (e.level > st.level_cursor + 1) := by omega
  have hc3 : ¬ (e.level = st.level_cursor) := by omega
  simp only [constructStep, hc1, hc2, hc3, gt_iff_lt, if_false, if_true, ite_false, ite_true]

/-- The C2 property of one gap-case iteration, with `g` short for the
placeholder count `e.level - level_cursor - 1`: the step succeeds; exactly `g`
placeholder nodes (title `"[]"`, level 0) are created at the fresh addresses
after the real node's, the first hung under the old cursor and each next one
under the previous, with the level cursor effectively advancing one per
placeholder; the real node is then attached under the deepest placeholder; the
cursors end at the real node and its level; and no other node changes. -/
def gapSpec (st : BuildState) (e : Heading) : Prop :=
  ∃ st', constructStep st e = .ok st' ∧
    st'.heap.length = st.heap.length + 1 + (e.level - st.level_cursor - 1) ∧
    st'.size = st.size + 1 + (e.level - st.level_cursor - 1) ∧
    st'.level_cursor = e.level ∧
    st'.position_cursor = some st.heap.length ∧
    st'.root = st.root ∧
    (∀ k, k < e.level - st.level_cursor - 1 →
      (getNode st'.heap (st.heap.length + 1 + k)).data = some ⟨0, "[]"⟩) ∧
    (∀ k, k < e.level - st.level_cursor - 1 →
      (getNode st'.heap (st.heap.length + 1 + k)).parent
        = if k = 0 then st.position_cursor else some (st.heap.length + k)) ∧
    (∀ k, k < e.level - st.level_cursor - 1 →
      (getNode st'.heap (st.heap.length + 1 + k)).children
        = if k = e.level - st.level_cursor - 1 - 1 then [some st.heap.length]
          else [some (st.heap.length + 1 + k + 1)]) ∧
    (∀ q, st.position_cursor = some q →
      getNode st'.heap q
        = { getNode st.heap q with
            children := (getNode st.heap q).children ++ [some (st.heap.length + 1)] }) ∧
    (getNode st'.heap st.heap.length).data = some e ∧
    (getNode st'.heap st.heap.length).parent
      = some (st.heap.length + (e.level - st.level_cursor - 1)) ∧
    (getNode st'.heap st.heap.length).children = [] ∧
    (∀ j, j < st.heap.length → st.position_cursor ≠ some j →
      getNode st'.heap j = getNode st.heap j)

/-- C2.  Whenever the incoming level exceeds `level_cursor + 1` and the cursor
is a live position, `constructStep` behaves exactly as the bridging
specification `gapSpec` describes. -/
theorem gap_bridges_with_placeholders (st : BuildState) (e : Heading) (p : Nat)
    (hgap : st.level_cursor + 1 < e.level)
    (hpc : st.position_cursor = some p)
    (hp : p < st.heap.length) :
    gapSpec st e := by
  have hg1 : 1 ≤ e.level - st.level_cursor - 1 := by omega
  set L0 := st.heap.length with hL0
  set g := e.level - st.level_cursor - 1 with hg
  set al1 : Heap := st.heap ++ [⟨none, [], some e⟩] with hal1
  have hlal : al1.length = L0 + 1 := by
    rw [hal1]
    simp only [List.length_append, List.length_cons, List.length_nil, hL0]
  obtain ⟨b1, b2, b3, b4, b5, b6, b7, b8, b9, b10⟩ :=
    bridgeLoop_spec g al1 st.size p st.level_cursor (by omega)
  set br := bridgeLoop g al1 st.size (some p) st.level_cursor with hbr
  have hcur : br.2.2.1 = some (L0 + g) := by
    rw [b4, if_neg (by omega : ¬ g = 0)]
    congr 1
    omega
  -- the real node inside the bridged heap
  have hreal : getNode br.1 L0 = ⟨none, [], some e⟩ := by
    rw [b5 L0 (by omega) (by omega), hal1, hL0, getNode_append_self]
  -- the final attach
  set h3 := setNode br.1 (L0 + g)
      { getNode br.1 (L0 + g) with children := (getNode br.1 (L0 + g)).children ++ [some L0] }
      with hh3
  set h4 := setNode h3 L0 { getNode h3 L0 with parent := some (L0 + g) } with hh4
  have hl3 : h3.length = L0 + 1 + g := by rw [hh3, length_setNode, b1, hlal]
  have hl4 : h4.length = L0 + 1 + g := by rw [hh4, length_setNode, hl3]
  have hg3L0 : getNode h3 L0 = ⟨none, [], some e⟩ := by
    rw [hh3, getNode_set_ne _ _ (by omega : L0 + g ≠ L0), hreal]
  have hg4L0 : getNode h4 L0 = ⟨some (L0 + g), [], some e⟩ := by
    rw [hh4, getNode_set_self _ (by omega), hg3L0]
  have hac : add_child br.1 br.2.1 br.2.2.1 (some L0) = (h4, br.2.1 + 1) := by
    rw [hcur]
    simp only [add_child]
  have hget : get h4 (some L0) = some e := by
    simp only [get, hg4L0]
  have hstep : constructStep st e
      = .ok { heap := h4, root := st.root, size := br.2.1 + 1
            , level_cursor := e.level, position_cursor := some L0 } := by
    rw [constructStep_gap st e hgap]
    simp only
    rw [show (alloc st.heap (some e)).1 = al1 from rfl,
      show (alloc st.heap (some e)).2 = L0 from rfl, ← hg, hpc, ← hbr, hac]
    simp only [hget]
  have hbrlen : br.1.length = L0 + 1 + g := by rw [b1, hlal]
  have hskip : ∀ i, i ≠ L0 → i ≠ L0 + g → getNode h4 i = getNode br.1 i := by
    intro i h1 h2
    rw [hh4, getNode_set_ne _ _ (Ne.symm h1), hh3, getNode_set_ne _ _ (Ne.symm h2)]
  have hlastPh : getNode h4 (L0 + g)
      = { getNode br.1 (L0 + g) with
          children := (getNode br.1 (L0 + g)).children ++ [some L0] } := by
    rw [hh4, getNode_set_ne _ _ (by omega : L0 ≠ L0 + g), hh3,
      getNode_set_self _ (by omega)]
  refine ⟨_, hstep, ?_, ?_, rfl, rfl, rfl, ?_, ?_, ?_, ?_, ?_, ?_, ?_, ?_⟩
  · exact hl4
  · simp only [b2]
    omega
  · intro k hk
    by_cases hkg : k = g - 1
    · rw [show L0 + 1 + k = L0 + g by omega, hlastPh]
      have hb := b8 (g - 1) (by omega)
      rw [show al1.length + (g - 1) = L0 + g by omega] at hb
      simpa using hb
    · rw [hskip _ (by omega) (by omega), show L0 + 1 + k = al1.length + k by omega]
      exact b8 k hk
  · intro k hk
    have hb := b9 k hk
    rw [show al1.length + k = L0 + 1 + k by omega] at hb
    have hpar : (getNode h4 (L0 + 1 + k)).parent = (getNode br.1 (L0 + 1 + k)).parent := by
      by_cases hkg : k = g - 1
      · rw [show L0 + 1 + k = L0 + g by omega, hlastPh]
      · rw [hskip _ (by omega) (by omega)]
    rw [hpar, hb, hpc]
    by_cases hk0 : k = 0
    · rw [if_pos hk0, if_pos hk0]
    · rw [if_neg hk0, if_neg hk0]
      congr 1
      omega
  · intro k hk
    have hb := b10 k hk
    rw [show al1.length + k = L0 + 1 + k by omega] at hb
    by_cases hkg : k = g - 1
    · rw [show L0 + 1 + k = L0 + g by omega, hlastPh, if_pos hkg]
      rw [if_pos hkg] at hb
      rw [show L0 + g = L0 + 1 + k by omega, hb]
      rfl
    · rw [hskip _ (by omega) (by omega), hb, if_neg hkg, if_neg hkg]
  · intro q hq
    have hqp : q = p := by
      rw [hq] at hpc
      exact Option.some.inj hpc
    subst hqp
    rw [hskip _ (by omega) (by omega), b6 (by omega)]
    rw [show getNode al1 q = getNode st.heap q from getNode_append_lt _ hp, hlal]
  · rw [hg4L0]
  · rw [hg4L0]
  · rw [hg4L0]
  · intro j hj hjq
    have hjp : j ≠ p := by
      intro hcontra
      exact hjq (by rw [hpc, hcontra])
    rw [hskip _ (by omega) (by omega), b5 j hjp (by omega),
      show getNode al1 j = getNode st.heap j from getNode_append_lt _ hj]

/-- Witness for C2 at a concrete call: the first heading jumping to level 3
over `base_level = 0` bridges with two placeholders. -/
theorem gap_bridges_with_placeholders_witness :
    (initState 0).level_cursor + 1 < (Heading.mk 3 "X").level ∧
    (initState 0).position_cursor = some 0 ∧
    0 < (initState 0).heap.length ∧
    gapSpec (initState 0) ⟨3, "X"⟩ :=
  ⟨by decide, rfl, by decide,
    gap_bridges_with_placeholders (initState 0) ⟨3, "X"⟩ 0 (by decide) rfl (by decide)⟩

/-! ### Claim C3: size accounting -/

/-- Placeholders contributed by a single heading against the running level
cursor. -/
def gapN (lc : Nat) (e : Heading) : Nat :=
  if lc + 1 < e.level then e.level - lc - 1 else 0

theorem length_setNode_any (h : Heap) (i : Nat) (nd : ArenaNode) :
    (setNode h i nd).length = h.length := List.length_set h i nd

theorem add_child_len (h : Heap) (sz : Nat) (anc nd : Pos) :
    (add_child h sz anc nd).1.length = h.length := by
  cases anc with
  | none => rfl
  | some p =>
    cases nd with
    | none => simp [add_child, length_setNode_any]
    | some n => simp [add_child, length_setNode_any]

theorem add_child_sz (h : Heap) (sz : Nat) (anc nd : Pos) :
    (add_child h sz anc nd).2 = sz + 1 := by
  cases anc with
  | none => rfl
  | some p => cases nd <;> rfl

theorem data_setNode_update (h : Heap) (i : Nat) (nd : ArenaNode)
    (hd : nd.data = (getNode h i).data) (j : Nat) :
    (getNode (setNode h i nd) j).data = (getNode h j).data := by
  by_cases hij : i = j
  · subst hij
    by_cases hi : i < h.length
    · rw [getNode_set_self _ hi, hd]
    · rw [setNode, List.set_eq_of_length_le (by omega)]
  · rw [getNode_set_ne _ _ hij]

theorem data_setNode_children (h : Heap) (i : Nat) (cs : List Pos) (j : Nat) :
    (getNode (setNode h i { getNode h i with children := cs }) j).data
      = (getNode h j).data :=
  data_setNode_update h i { getNode h i with children := cs } rfl j

theorem data_setNode_parent (h : Heap) (i : Nat) (pa : Pos) (j : Nat) :
    (getNode (setNode h i { getNode h i with parent := pa }) j).data
      = (getNode h j).data :=
  data_setNode_update h i { getNode h i with parent := pa } rfl j

theorem add_child_data (h : Heap) (sz : Nat) (anc nd : Pos) (j : Nat) :
    (getNode (add_child h sz anc nd).1 j).data = (getNode h j).data := by
  cases anc with
  | none => rfl
  | some p =>
    cases nd with
    | none =>
      simp only [add_child]
      exact data_setNode_children h p _ j
    | some n =>
      simp only [add_child]
      rw [data_setNode_parent, data_setNode_children]

theorem bridgeLoop_counts (n : Nat) :
    ∀ (h : Heap) (size : Nat) (pc : Pos) (lc : Nat),
    (bridgeLoop n h size pc lc).1.length = h.length + n ∧
    (bridgeLoop n h size pc lc).2.1 = size + n ∧
    (∀ j, j < h.length →
      (getNode (bridgeLoop n h size pc lc).1 j).data = (getNode h j).data) := by
  induction n with
  | zero => intro h size pc lc; exact ⟨rfl, rfl, fun j _ => rfl⟩
  | succ m ih =>
    intro h size pc lc
    have hstep : bridgeLoop (m+1) h size pc lc
        = bridgeLoop m
            (add_child (h ++ [⟨none, [], some ⟨0, "[]"⟩⟩]) size pc (some h.length)).1
            (add_child (h ++ [⟨none, [], some ⟨0, "[]"⟩⟩]) size pc (some h.length)).2
            (some h.length) (lc + 1) := rfl
    rw [hstep]
    obtain ⟨j1, j2, j3⟩ := ih
      (add_child (h ++ [⟨none, [], some ⟨0, "[]"⟩⟩]) size pc (some h.length)).1
      (add_child (h ++ [⟨none, [], some ⟨0, "[]"⟩⟩]) size pc (some h.length)).2
      (some h.length) (lc + 1)
    have hlen : (add_child (h ++ [⟨none, [], some ⟨0, "[]"⟩⟩]) size pc (some h.length)).1.length
        = h.length + 1 := by
      rw [add_child_len]
      simp
    have hsz : (add_child (h ++ [⟨none, [], some ⟨0, "[]"⟩⟩]) size pc (some h.length)).2
        = size + 1 := add_child_sz _ _ _ _
    refine ⟨by omega, by omega, ?_⟩
    intro j hj
    rw [j3 j (by omega), add_child_data, getNode_append_lt _ hj]

/-- Per-step bookkeeping: a successful `constructStep` grows size and arena by
one real node plus `gapN` placeholders, sets the level cursor to the incoming
level, and never touches the root pointer. -/
theorem constructStep_counts (st : BuildState) (e : Heading) (st' : BuildState)
    (hok : constructStep st e = .ok st') :
    st'.size = st.size + 1 + gapN st.level_cursor e ∧
    st'.level_cursor = e.level ∧
    st'.heap.length = st.heap.length + 1 + gapN st.level_cursor e ∧
    st'.root = st.root := by
  by_cases h1 : e.level = st.level_cursor + 1
  · have hg0 : gapN st.level_cursor e = 0 := by
      unfold gapN
      rw [if_neg (by omega)]
    rw [constructStep_child st e h1] at hok
    simp only [alloc] at hok
    have hget : get (add_child (st.heap ++ [⟨none, [], some e⟩]) st.size
        st.position_cursor (some st.heap.length)).1 (some st.heap.length) = some e := by
      simp only [get]
      rw [add_child_data, getNode_append_self]
    rw [hget] at hok
    injection hok with hok2
    subst hok2
    refine ⟨?_, rfl, ?_, rfl⟩
    · rw [add_child_sz, hg0]
    · simp only [add_child_len, List.length_append, List.length_cons, List.length_nil, hg0]
  · by_cases h2 : st.level_cursor + 1 < e.level
    · have hgg : gapN st.level_cursor e = e.level - st.level_cursor - 1 := by
        unfold gapN
        rw [if_pos h2]
      rw [constructStep_gap st e h2] at hok
      simp only [alloc] at hok
      obtain ⟨c1, c2, c3⟩ := bridgeLoop_counts (e.level - st.level_cursor - 1)
        (st.heap ++ [⟨none, [], some e⟩]) st.size st.position_cursor st.level_cursor
      have hget : get (add_child
          (bridgeLoop (e.level - st.level_cursor - 1) (st.heap ++ [⟨none, [], some e⟩])
            st.size st.position_cursor st.level_cursor).1
          (bridgeLoop (e.level - st.level_cursor - 1) (st.heap ++ [⟨none, [], some e⟩])
            st.size st.position_cursor st.level_cursor).2.1
          (bridgeLoop (e.level - st.level_cursor - 1) (st.heap ++ [⟨none, [], some e⟩])
            st.size st.position_cursor st.level_cursor).2.2.1
          (some st.heap.length)).1 (some st.heap.length) = some e := by
        simp only [get]
        rw [add_child_data, c3 st.heap.length (by simp), getNode_append_self]
      rw [hget] at hok
      injection hok with hok2
      subst hok2
      have hlapp : (st.heap ++ [(⟨none, [], some e⟩ : ArenaNode)]).length
          = st.heap.length + 1 := by simp
      refine ⟨?_, rfl, ?_, rfl⟩
      · simp only [add_child_sz, c2, hgg]
        omega
      · simp only [add_child_len, c1, hlapp, hgg]
    · by_cases h3 : e.level = st.level_cursor
      · have hg0 : gapN st.level_cursor e = 0 := by
          unfold gapN
          rw [if_neg (by omega)]
        rw [constructStep_sibling st e h3] at hok
        simp only [alloc] at hok
        cases hpc : st.position_cursor with
        | none =>
          rw [hpc] at hok
          simp only [parent] at hok
          simp at hok
        | some q =>
          rw [hpc] at hok
          simp only [parent] at hok
          injection hok with hok2
          subst hok2
          refine ⟨?_, ?_, ?_, rfl⟩
          · rw [add_child_sz, hg0]
          · show st.level_cursor = e.level
            omega
          · simp only [add_child_len, List.length_append, List.length_cons,
              List.length_nil, hg0]
      · have h4 : e.level < st.level_cursor := by omega
        have hg0 : gapN st.level_cursor e = 0 := by
          unfold gapN
          rw [if_neg (by omega)]
        rw [constructStep_ascend st e h4] at hok
        simp only [alloc] at hok
        cases hpc : st.position_cursor with
        | none =>
          rw [hpc] at hok
          simp only [parent] at hok
          simp at hok
        | some q =>
          rw [hpc] at hok
          simp only [parent] at hok
          cases hasc : ascendLoop (st.heap ++ [⟨none, [], some e⟩])
              (st.level_cursor - e.level)
              ((getNode (st.heap ++ [⟨none, [], some e⟩]) q).parent) st.level_cursor with
          | error s =>
            rw [hasc] at hok
            simp at hok
          | ok pr =>
            simp only [hasc] at hok
            have hget : get (add_child (st.heap ++ [⟨none, [], some e⟩]) st.size
                pr.1 (some st.heap.length)).1 (some st.heap.length) = some e := by
              simp only [get]
              rw [add_child_data, getNode_append_self]
            rw [hget] at hok
            injection hok with hok2
            subst hok2
            refine ⟨?_, rfl, ?_, rfl⟩
            · rw [add_child_sz, hg0]
            · simp only [add_child_len, List.length_append, List.length_cons,
                List.length_nil, hg0]

/-- Size and arena accounting over a whole run of the builder loop. -/
theorem constructGo_size (data : List Heading) :
    ∀ st st', constructGo st data = .ok st' →
    st'.size = st.size + data.length + phCount st.level_cursor data ∧
    st'.heap.length = st.heap.length + data.length + phCount st.level_cursor data ∧
    st'.root = st.root := by
  induction data with
  | nil =>
    intro st st' h
    injection h with h2
    subst h2
    simp [phCount]
  | cons e rest ih =>
    intro st st' h
    simp only [constructGo] at h
    cases hstep : constructStep st e with
    | error s =>
      rw [hstep] at h
      simp at h
    | ok stm =>
      rw [hstep] at h
      obtain ⟨s1, s2, s3⟩ := ih stm st' h
      obtain ⟨c1, c2, c3, c4⟩ := constructStep_counts st e stm hstep
      have hph : phCount st.level_cursor (e :: rest)
          = gapN st.level_cursor e + phCount e.level rest := by
        simp only [phCount, gapN]
      refine ⟨?_, ?_, by rw [s3, c4]⟩
      · rw [s1, c1, c2, hph]
        simp only [List.length_cons]
        omega
      · rw [s2, c3, c2, hph]
        simp only [List.length_cons]
        omega

/-- C3. For a non-empty input on which the builder succeeds, the final size is
1 (the root) plus the number of real headings plus the number of placeholders
inserted while bridging gaps. -/
theorem size_counts_headings_and_placeholders (base : Nat) (data : List Heading)
    (st : BuildState) (_hne : data ≠ []) (hok : construct base data = .ok st) :
    st.size = 1 + data.length + phCount base data := by
  obtain ⟨s1, _, _⟩ := constructGo_size data (initState base) st hok
  rw [s1]
  rfl

/-- Concrete state produced by `construct 0 [(1, "A"), (3, "B")]`: root, `A`
under it, one placeholder under `A`, and `B` under the placeholder. -/
def c3state : BuildState :=
  { heap := [⟨none, [some 1], some ⟨0, "ROOT"⟩⟩,
             ⟨some 0, [some 3], some ⟨1, "A"⟩⟩,
             ⟨some 3, [], some ⟨3, "B"⟩⟩,
             ⟨some 1, [some 2], some ⟨0, "[]"⟩⟩]
  , root := some 0, size := 4, level_cursor := 3, position_cursor := some 2 }

/-- Witness for C3 at a concrete input with one gap: 1 root + 2 headings + 1
placeholder. -/
theorem size_counts_headings_and_placeholders_witness :
    ([(⟨1, "A"⟩ : Heading), ⟨3, "B"⟩] ≠ ([] : List Heading)) ∧
    construct 0 [⟨1, "A"⟩, ⟨3, "B"⟩] = .ok c3state ∧
    c3state.size = 1 + ([(⟨1, "A"⟩ : Heading), ⟨3, "B"⟩]).length
      + phCount 0 [⟨1, "A"⟩, ⟨3, "B"⟩] :=
  ⟨by decide, by rfl,
    size_counts_headings_and_placeholders 0 [⟨1, "A"⟩, ⟨3, "B"⟩] c3state (by decide) (by rfl)⟩

/-! ### Claim C9: empty input -/

/-- C9. The empty input is not an error: `construct` succeeds and returns the
root-only tree with `size = 1`, and rendering it produces the document name
line followed by the explicit `[]` empty marker (and the closing blank line
from the final newline). -/
theorem empty_input_root_only (base : Nat) (name : String) :
    construct base [] = .ok (initState base) ∧
    (initState base).size = 1 ∧
    pretty_print (initState base).heap (initState base).heap.length name (initState base).root
      = ["📄 " ++ name, "\t[]", ""] :=
  ⟨rfl, rfl, rfl⟩

/-! ### Claim C10: rendering is deterministic -/

/-- C10. Rendering the same tree twice yields byte-identical output: the
renderer is a pure function of the arena (the source takes the tree by shared
reference and performs no mutation, which the embedding reflects). -/
theorem render_twice_identical (h : Heap) (fuel : Nat) (name : String) (position : Pos) :
    (renderTwice h fuel name position).1 = (renderTwice h fuel name position).2 := rfl

/-! ### A mirror tree for reasoning about the pointer structure

`ITree` is a proof-side rose tree labelling each node with its arena index and
title.  `goodTree h t` says the arena's pointer structure below `t.idx` is
exactly `t`: children lists match, every child's parent link points back, and
the stored heading's title matches the label.  All invariant reasoning about
`construct` goes through this mirror. -/

inductive ITree where
  | node (idx : Nat) (ttl : String) (children : List ITree)

def ITree.idx : ITree → Nat
  | .node i _ _ => i

def ITree.ttl : ITree → String
  | .node _ s _ => s

def ITree.children : ITree → List ITree
  | .node _ _ cs => cs

/-- Children positions as stored in the arena. -/
def childIdxs (cs : List ITree) : List Pos := cs.map (fun c => some c.idx)

mutual

/-- Preorder list of arena indices of a mirror tree. -/
def ITree.flatIdx : ITree → List Nat
  | .node i _ cs => i :: forestIdx cs

def forestIdx : List ITree → List Nat
  | [] => []
  | c :: cs => c.flatIdx ++ forestIdx cs

end

mutual

/-- Preorder list of titles of a mirror tree. -/
def ITree.flatTitles : ITree → List String
  | .node _ s cs => s :: forestTitles cs

def forestTitles : List ITree → List String
  | [] => []
  | c :: cs => c.flatTitles ++ forestTitles cs

end

mutual

/-- Height of a mirror tree, accumulated exactly like the source's `_height`
fold. -/
def ITree.ht : ITree → Nat
  | .node _ _ cs => htsAcc cs 0 + 1

def htsAcc : List ITree → Nat → Nat
  | [], acc => acc
  | c :: cs, acc => htsAcc cs (max acc c.ht)

end

mutual

/-- The rightmost path of a mirror tree: its own index followed by the
rightmost path of its last child. -/
def ITree.rpath : ITree → List Nat
  | .node i _ cs => i :: listRpath cs

def listRpath : List ITree → List Nat
  | [] => []
  | [c] => c.rpath
  | _ :: c :: cs => listRpath (c :: cs)

end

/-- Rightmost-path entry at a given depth (0 is the tree's own index). -/
def rpathD (t : ITree) (d : Nat) : Nat := (t.rpath).getD d 0

/-- The index of the deepest rightmost node. -/
def rlast (t : ITree) : Nat := (t.rpath).getD ((t.rpath).length - 1) 0

mutual

/-- Attach a fresh leaf labelled `(n, s)` as the new last child of the node
sitting at depth `d` on the rightmost path. -/
def attachRight : ITree → Nat → Nat → String → ITree
  | .node i s cs, 0, n, lbl => .node i s (cs ++ [.node n lbl []])
  | .node i s cs, d+1, n, lbl => .node i s (attachLast cs d n lbl)

def attachLast : List ITree → Nat → Nat → String → List ITree
  | [], _, _, _ => []
  | [c], d, n, lbl => [attachRight c d n lbl]
  | c0 :: c1 :: cs, d, n, lbl => c0 :: attachLast (c1 :: cs) d n lbl

end

mutual

/-- The arena agrees with the mirror tree below this node. -/
def goodTree (h : Heap) : ITree → Prop
  | .node i s cs =>
    ((getNode h i).data.map Heading.title) = some s ∧
    (getNode h i).children = childIdxs cs ∧
    goodForest h i cs

/-- Each child's parent link points back at `parentIdx`, and the arena agrees
with each child subtree. -/
def goodForest (h : Heap) (parentIdx : Nat) : List ITree → Prop
  | [] => True
  | c :: cs => (getNode h c.idx).parent = some parentIdx ∧ goodTree h c ∧
      goodForest h parentIdx cs

end

/-- Being a subtree at a given depth below a mirror tree. -/
inductive BelowT : ITree → ITree → Nat → Prop where
  | refl (t : ITree) : BelowT t t 0
  | step {t : ITree} {c s : ITree} {k : Nat} :
      c ∈ t.children → BelowT c s k → BelowT t s (k + 1)

/-- Structural induction on `ITree` through child membership. -/
theorem itree_mem_ind (P : ITree → Prop)
    (h : ∀ i s cs, (∀ c, c ∈ cs → P c) → P (ITree.node i s cs)) : ∀ t, P t := by
  suffices H : ∀ n t, sizeOf t ≤ n → P t by
    intro t
    exact H (sizeOf t) t le_rfl
  intro n
  induction n with
  | zero =>
    intro t ht
    cases t with
    | node i s cs => simp at ht
  | succ m ih =>
    intro t ht
    cases t with
    | node i s cs =>
      apply h
      intro c hc
      apply ih
      have h1 : sizeOf c < sizeOf cs := List.sizeOf_lt_of_mem hc
      have h2 : sizeOf (ITree.node i s cs) = 1 + sizeOf i + sizeOf s + sizeOf cs := by
        simp [ITree.node.sizeOf_spec]
      omega

theorem forestIdx_append (xs ys : List ITree) :
    forestIdx (xs ++ ys) = forestIdx xs ++ forestIdx ys := by
  induction xs with
  | nil => rfl
  | cons c cs ih => simp [forestIdx, ih]

theorem forestTitles_append (xs ys : List ITree) :
    forestTitles (xs ++ ys) = forestTitles xs ++ forestTitles ys := by
  induction xs with
  | nil => rfl
  | cons c cs ih => simp [forestTitles, ih]

theorem childIdxs_append (xs ys : List ITree) :
    childIdxs (xs ++ ys) = childIdxs xs ++ childIdxs ys := List.map_append _ xs ys

theorem rpath_ne_nil (t : ITree) : t.rpath ≠ [] := by
  cases t with
  | node i s cs => simp [ITree.rpath]

theorem rpath_cons (i : Nat) (s : String) (cs : List ITree) :
    (ITree.node i s cs).rpath = i :: listRpath cs := rfl

theorem listRpath_snoc (cs : List ITree) (c : ITree) : listRpath (cs ++ [c]) = c.rpath := by
  induction cs with
  | nil => rfl
  | cons x cs ih =>
    cases hcs : cs ++ [c] with
    | nil => exact absurd hcs (by simp)
    | cons y ys =>
      rw [List.cons_append, hcs]
      show listRpath (y :: ys) = c.rpath
      rw [← hcs]
      exact ih

theorem attachLast_snoc (cs : List ITree) (c : ITree) (d n : Nat) (lbl : String) :
    attachLast (cs ++ [c]) d n lbl = cs ++ [attachRight c d n lbl] := by
  induction cs with
  | nil => rfl
  | cons x cs ih =>
    cases hcs : cs ++ [c] with
    | nil => exact absurd hcs (by simp)
    | cons y ys =>
      rw [List.cons_append, hcs]
      show x :: attachLast (y :: ys) d n lbl = x :: (cs ++ [attachRight c d n lbl])
      rw [← hcs, ih]

theorem attachRight_spec (d : Nat) :
    ∀ (t : ITree) (n : Nat) (lbl : String), d < t.rpath.length →
    (attachRight t d n lbl).flatIdx = t.flatIdx ++ [n] ∧
    (attachRight t d n lbl).flatTitles = t.flatTitles ++ [lbl] ∧
    (attachRight t d n lbl).rpath = t.rpath.take (d + 1) ++ [n] ∧
    (attachRight t d n lbl).idx = t.idx := by
  induction d with
  | zero =>
    intro t n lbl hd
    cases t with
    | node i s cs =>
      refine ⟨?_, ?_, ?_, rfl⟩
      · show (ITree.node i s (cs ++ [.node n lbl []])).flatIdx = _
        simp [ITree.flatIdx, forestIdx_append, forestIdx]
      · show (ITree.node i s (cs ++ [.node n lbl []])).flatTitles = _
        simp [ITree.flatTitles, forestTitles_append, forestTitles]
      · show (ITree.node i s (cs ++ [.node n lbl []])).rpath = _
        simp [ITree.rpath, rpath_cons, listRpath_snoc, listRpath]
  | succ d ih =>
    intro t n lbl hd
    cases t with
    | node i s cs =>
      rcases List.eq_nil_or_concat cs with hnil | ⟨cs', c, hcs⟩
      · subst hnil
        simp [rpath_cons, listRpath] at hd
      · rw [List.concat_eq_append] at hcs
        subst hcs
        have hlr : listRpath (cs' ++ [c]) = c.rpath := listRpath_snoc cs' c
        have hd' : d < c.rpath.length := by
          rw [rpath_cons, hlr] at hd
          simpa using hd
        obtain ⟨i1, i2, i3, i4⟩ := ih c n lbl hd'
        have hal : attachRight (ITree.node i s (cs' ++ [c])) (d + 1) n lbl
            = ITree.node i s (cs' ++ [attachRight c d n lbl]) := by
          show ITree.node i s (attachLast (cs' ++ [c]) d n lbl) = _
          rw [attachLast_snoc]
        rw [hal]
        refine ⟨?_, ?_, ?_, rfl⟩
        · show i :: forestIdx (cs' ++ [attachRight c d n lbl])
            = (i :: forestIdx (cs' ++ [c])) ++ [n]
          rw [forestIdx_append, forestIdx_append]
          simp [forestIdx, i1]
        · show s :: forestTitles (cs' ++ [attachRight c d n lbl])
            = (s :: forestTitles (cs' ++ [c])) ++ [lbl]
          rw [forestTitles_append, forestTitles_append]
          simp [forestTitles, i2]
        · show i :: listRpath (cs' ++ [attachRight c d n lbl])
            = (i :: listRpath (cs' ++ [c])).take (d + 2) ++ [n]
          rw [listRpath_snoc, listRpath_snoc, i3, List.take_cons (by omega)]
          simp

theorem rpathD_zero (t : ITree) : rpathD t 0 = t.idx := by
  cases t with
  | node i s cs => simp [rpathD, rpath_cons, ITree.idx]

theorem rpathD_succ (i : Nat) (s : String) (cs' : List ITree) (c : ITree) (d : Nat) :
    rpathD (ITree.node i s (cs' ++ [c])) (d + 1) = rpathD c d := by
  simp [rpathD, rpath_cons, listRpath_snoc]

theorem mem_forestIdx_of_mem_flat {cs : List ITree} {c : ITree} (hc : c ∈ cs) :
    ∀ x ∈ c.flatIdx, x ∈ forestIdx cs := by
  induction cs with
  | nil => cases hc
  | cons y ys ih =>
    intro x hx
    rcases List.mem_cons.mp hc with h | h
    · subst h
      simp [forestIdx, hx]
    · simp [forestIdx, ih h x hx]

theorem idx_mem_flat (t : ITree) : t.idx ∈ t.flatIdx := by
  cases t with
  | node i s cs => simp [ITree.flatIdx, ITree.idx]

theorem rpath_sub_flat : ∀ t : ITree, ∀ x ∈ t.rpath, x ∈ t.flatIdx := by
  apply itree_mem_ind (fun t => ∀ x ∈ t.rpath, x ∈ t.flatIdx)
  intro i s cs ih x hx
  rw [rpath_cons] at hx
  rcases List.mem_cons.mp hx with h | h
  · subst h
    simp [ITree.flatIdx]
  · rcases List.eq_nil_or_concat cs with hnil | ⟨cs', c, hcs⟩
    · subst hnil
      simp [listRpath] at h
    · rw [List.concat_eq_append] at hcs
      subst hcs
      rw [listRpath_snoc] at h
      have := ih c (by simp) x h
      show x ∈ (ITree.node i s (cs' ++ [c])).flatIdx
      simp only [ITree.flatIdx]
      exact List.mem_cons_of_mem i (mem_forestIdx_of_mem_flat (by simp) x this)

theorem rpathD_mem {t : ITree} {d : Nat} (hd : d < t.rpath.length) :
    rpathD t d ∈ t.rpath := by
  rw [rpathD, List.getD_eq_getElem?_getD, List.getElem?_eq_getElem hd]
  exact List.getElem_mem hd

theorem htsAcc_ge (cs : List ITree) : ∀ acc, acc ≤ htsAcc cs acc := by
  induction cs with
  | nil => intro acc; exact le_rfl
  | cons c cs ih =>
    intro acc
    calc acc ≤ max acc c.ht := le_max_left _ _
    _ ≤ htsAcc cs (max acc c.ht) := ih _

theorem ht_child_le {cs : List ITree} {c : ITree} (hc : c ∈ cs) :
    ∀ acc, c.ht ≤ htsAcc cs acc := by
  induction cs with
  | nil => cases hc
  | cons y ys ih =>
    intro acc
    rcases List.mem_cons.mp hc with h | h
    · subst h
      calc c.ht ≤ max acc c.ht := le_max_right _ _
      _ ≤ htsAcc ys (max acc c.ht) := htsAcc_ge _ _
    · exact ih h _

theorem ht_pos (t : ITree) : 1 ≤ t.ht := by
  cases t with
  | node i s cs => simp [ITree.ht]

theorem htsAcc_le_len : ∀ (cs : List ITree), (∀ c ∈ cs, c.ht ≤ c.flatIdx.length) →
    ∀ acc, htsAcc cs acc ≤ max acc (forestIdx cs).length := by
  intro cs
  induction cs with
  | nil =>
    intro _ acc
    simp [htsAcc, forestIdx]
  | cons c cs ih =>
    intro hsub acc
    have h1 : htsAcc cs (max acc c.ht) ≤ max (max acc c.ht) (forestIdx cs).length :=
      ih (fun x hx => hsub x (List.mem_cons_of_mem _ hx)) _
    have h2 : c.ht ≤ c.flatIdx.length := hsub c (List.mem_cons_self _ _)
    have h3 : forestIdx (c :: cs) = c.flatIdx ++ forestIdx cs := rfl
    show htsAcc cs (max acc c.ht) ≤ max acc (forestIdx (c :: cs)).length
    rw [h3, List.length_append]
    omega

theorem ht_le_flat_len : ∀ t : ITree, t.ht ≤ t.flatIdx.length := by
  apply itree_mem_ind (fun t => t.ht ≤ t.flatIdx.length)
  intro i s cs ih
  have := htsAcc_le_len cs ih 0
  show htsAcc cs 0 + 1 ≤ (i :: forestIdx cs).length
  simp only [List.length_cons]
  omega

theorem goodForest_mem {h : Heap} {i : Nat} :
    ∀ {cs : List ITree}, goodForest h i cs → ∀ c ∈ cs,
    (getNode h c.idx).parent = some i ∧ goodTree h c := by
  intro cs
  induction cs with
  | nil => intro _ c hc; cases hc
  | cons y ys ih =>
    intro hg c hc
    obtain ⟨h1, h2, h3⟩ := hg
    rcases List.mem_cons.mp hc with h | h
    · subst h
      exact ⟨h1, h2⟩
    · exact ih h3 c h

theorem goodTree_frame : ∀ (t : ITree) (h h' : Heap), goodTree h t →
    (∀ j ∈ t.flatIdx, getNode h' j = getNode h j) → goodTree h' t := by
  apply itree_mem_ind
    (fun t => ∀ (h h' : Heap), goodTree h t →
      (∀ j ∈ t.flatIdx, getNode h' j = getNode h j) → goodTree h' t)
  intro i s cs ih h h' hg hagree
  obtain ⟨h1, h2, h3⟩ := hg
  have hi : getNode h' i = getNode h i := hagree i (idx_mem_flat _)
  refine ⟨by rw [hi]; exact h1, by rw [hi]; exact h2, ?_⟩
  clear h1 h2 hi
  induction cs with
  | nil => trivial
  | cons c cs ihc =>
    obtain ⟨g1, g2, g3⟩ := h3
    have hcflat : ∀ j ∈ c.flatIdx, getNode h' j = getNode h j := by
      intro j hj
      refine hagree j ?_
      show j ∈ (ITree.node i s (c :: cs)).flatIdx
      simp only [ITree.flatIdx]
      exact List.mem_cons_of_mem i (mem_forestIdx_of_mem_flat (List.mem_cons_self _ _) j hj)
    refine ⟨?_, ?_, ?_⟩
    · rw [hcflat c.idx (idx_mem_flat c)]
      exact g1
    · exact ih c (List.mem_cons_self _ _) h h' g2 hcflat
    · refine ihc (fun x hx => ih x (List.mem_cons_of_mem _ hx)) ?_ g3
      intro j hj
      refine hagree j ?_
      rcases List.mem_cons.mp hj with hji | hjf
      · exact hji ▸ List.mem_cons_self _ _
      · show j ∈ (ITree.node i s (c :: cs)).flatIdx
        simp only [ITree.flatIdx, forestIdx]
        right
        exact List.mem_append_right _ hjf

theorem goodForest_append {h : Heap} {i : Nat} :
    ∀ {xs ys : List ITree}, goodForest h i xs → goodForest h i ys →
    goodForest h i (xs ++ ys) := by
  intro xs
  induction xs with
  | nil => intro ys _ hy; exact hy
  | cons c cs ih =>
    intro ys hx hy
    obtain ⟨h1, h2, h3⟩ := hx
    exact ⟨h1, h2, ih h3 hy⟩

theorem goodForest_split {h : Heap} {i : Nat} :
    ∀ {xs ys : List ITree}, goodForest h i (xs ++ ys) →
    goodForest h i xs ∧ goodForest h i ys := by
  intro xs
  induction xs with
  | nil => intro ys hy; exact ⟨trivial, hy⟩
  | cons c cs ih =>
    intro ys hx
    obtain ⟨h1, h2, h3⟩ := hx
    obtain ⟨ha, hb⟩ := ih h3
    exact ⟨⟨h1, h2, ha⟩, hb⟩

theorem goodForest_frame {h h' : Heap} {i : Nat} :
    ∀ {cs : List ITree}, goodForest h i cs →
    (∀ j ∈ forestIdx cs, getNode h' j = getNode h j) → goodForest h' i cs := by
  intro cs
  induction cs with
  | nil => intro _ _; trivial
  | cons c cs ih =>
    intro hg hagree
    obtain ⟨h1, h2, h3⟩ := hg
    have hsub : ∀ j ∈ c.flatIdx, getNode h' j = getNode h j := by
      intro j hj
      exact hagree j (by simp [forestIdx, hj])
    refine ⟨?_, ?_, ?_⟩
    · rw [hsub c.idx (idx_mem_flat c)]
      exact h1
    · exact goodTree_frame c h h' h2 hsub
    · refine ih h3 ?_
      intro j hj
      exact hagree j (by simp [forestIdx, hj])

/-- Central attach lemma: if the arena mirrors `t`, and `h'` differs from `h`
only by appending fresh child `n` to the node at rightmost depth `d` (whose
other fields are untouched) and by the fresh leaf `n` itself, then the arena
mirrors `attachRight t d n`. -/
theorem attachRight_good (d : Nat) :
    ∀ (t : ITree) (h h' : Heap) (n : Nat) (dat : Heading),
    goodTree h t →
    (t.flatIdx).Nodup →
    (∀ j ∈ t.flatIdx, j ≠ n) →
    d < t.rpath.length →
    (∀ j ∈ t.flatIdx, j ≠ rpathD t d → getNode h' j = getNode h j) →
    getNode h' (rpathD t d)
      = { getNode h (rpathD t d) with
          children := (getNode h (rpathD t d)).children ++ [some n] } →
    getNode h' n = ⟨some (rpathD t d), [], some dat⟩ →
    goodTree h' (attachRight t d n dat.title) := by
  induction d with
  | zero =>
    intro t h h' n dat hg hnd hfresh hd hframe hq hn
    cases t with
    | node i s cs =>
      obtain ⟨g1, g2, g3⟩ := hg
      have hqi : rpathD (ITree.node i s cs) 0 = i := by
        rw [rpathD_zero]
        rfl
      rw [hqi] at hframe hq hn
      have hnotin : i ∉ forestIdx cs := by
        have := List.nodup_cons.mp (by simpa [ITree.flatIdx] using hnd)
        exact this.1
      show goodTree h' (ITree.node i s (cs ++ [ITree.node n dat.title []]))
      refine ⟨?_, ?_, ?_⟩
      · rw [hq]
        simpa using g1
      · rw [hq]
        show (getNode h i).children ++ [some n] = childIdxs (cs ++ [ITree.node n dat.title []])
        rw [g2, childIdxs_append]
        simp [childIdxs, ITree.idx]
      · refine goodForest_append ?_ ?_
        · refine goodForest_frame g3 ?_
          intro j hj
          refine hframe j ?_ ?_
          · show j ∈ (ITree.node i s cs).flatIdx
            simp [ITree.flatIdx, hj]
          · intro hji
            exact hnotin (hji ▸ hj)
        · refine ⟨?_, ⟨?_, ?_, trivial⟩, trivial⟩
          · show (getNode h' (ITree.node n dat.title []).idx).parent = some i
            rw [show (ITree.node n dat.title []).idx = n from rfl, hn]
          · show ((getNode h' (ITree.node n dat.title []).idx).data.map Heading.title)
              = some dat.title
            rw [show (ITree.node n dat.title []).idx = n from rfl, hn]
            rfl
          · show (getNode h' (ITree.node n dat.title []).idx).children = childIdxs []
            rw [show (ITree.node n dat.title []).idx = n from rfl, hn]
            rfl
  | succ d ihd =>
    intro t h h' n dat hg hnd hfresh hd hframe hq hn
    cases t with
    | node i s cs =>
      rcases List.eq_nil_or_concat cs with hnil | ⟨cs', c, hcs⟩
      · subst hnil
        rw [rpath_cons] at hd
        simp [listRpath] at hd
      · rw [List.concat_eq_append] at hcs
        subst hcs
        obtain ⟨g1, g2, g3⟩ := hg
        have hrq : rpathD (ITree.node i s (cs' ++ [c])) (d + 1) = rpathD c d :=
          rpathD_succ i s cs' c d
        have hd' : d < c.rpath.length := by
          rw [rpath_cons, listRpath_snoc] at hd
          simpa using hd
        have hcmem : c ∈ cs' ++ [c] := by simp
        obtain ⟨hcpar, hcgood⟩ := goodForest_mem g3 c hcmem
        have hqmemc : rpathD c d ∈ c.flatIdx := rpath_sub_flat c _ (rpathD_mem hd')
        have hflatc : ∀ x ∈ c.flatIdx, x ∈ (ITree.node i s (cs' ++ [c])).flatIdx := by
          intro x hx
          simp only [ITree.flatIdx]
          exact List.mem_cons_of_mem i (mem_forestIdx_of_mem_flat hcmem x hx)
        have hndcons := List.nodup_cons.mp (by simpa [ITree.flatIdx] using hnd)
        have hndf : (forestIdx (cs' ++ [c])).Nodup := hndcons.2
        have hinotin : i ∉ forestIdx (cs' ++ [c]) := hndcons.1
        have hsplitnd := List.nodup_append.mp (by rwa [forestIdx_append] at hndf)
        have hdisj : ∀ x ∈ forestIdx cs', x ∉ c.flatIdx := by
          intro x hx hxc
          exact (List.disjoint_left.mp hsplitnd.2.2) hx (by simpa [forestIdx] using hxc)
        have hiq : i ≠ rpathD c d := by
          intro hcontra
          exact hinotin (hcontra ▸ mem_forestIdx_of_mem_flat hcmem _ hqmemc)
        rw [hrq] at hframe hq hn
        have hc' : goodTree h' (attachRight c d n dat.title) := by
          refine ihd c h h' n dat hcgood ?_ ?_ hd' ?_ hq hn
          · have : c.flatIdx.Nodup := by
              have hsub : c.flatIdx.Sublist (forestIdx (cs' ++ [c])) := by
                rw [forestIdx_append]
                have hfc : forestIdx [c] = c.flatIdx := by simp [forestIdx]
                rw [hfc]
                exact List.sublist_append_right _ _
              exact hndf.sublist hsub
            exact this
          · intro j hj
            exact hfresh j (hflatc j hj)
          · intro j hj hjq
            exact hframe j (hflatc j hj) hjq
        have hattach : attachRight (ITree.node i s (cs' ++ [c])) (d + 1) n dat.title
            = ITree.node i s (cs' ++ [attachRight c d n dat.title]) := by
          show ITree.node i s (attachLast (cs' ++ [c]) d n dat.title) = _
          rw [attachLast_snoc]
        rw [hattach]
        have hineq : getNode h' i = getNode h i := by
          refine hframe i ?_ hiq
          exact idx_mem_flat _
        have hidx : (attachRight c d n dat.title).idx = c.idx :=
          (attachRight_spec d c n dat.title hd').2.2.2
        refine ⟨by rw [hineq]; exact g1, ?_, ?_⟩
        · rw [hineq, g2]
          show childIdxs (cs' ++ [c]) = childIdxs (cs' ++ [attachRight c d n dat.title])
          rw [childIdxs_append, childIdxs_append]
          simp [childIdxs, hidx]
        · refine goodForest_append ?_ ?_
          · refine goodForest_frame (goodForest_split g3).1 ?_
            intro j hj
            refine hframe j ?_ ?_
            · simp only [ITree.flatIdx]
              refine List.mem_cons_of_mem i ?_
              rw [forestIdx_append]
              exact List.mem_append_left _ hj
            · intro hjq
              exact hdisj j hj (hjq ▸ hqmemc)
          · refine ⟨?_, hc', trivial⟩
            rw [hidx]
            by_cases hcq : c.idx = rpathD c d
            · rw [hcq, hq]
              show (getNode h (rpathD c d)).parent = some i
              rw [← hcq]
              exact hcpar
            · rw [hframe c.idx (hflatc c.idx (idx_mem_flat c)) hcq]
              exact hcpar

theorem rpath_parent_chain : ∀ t : ITree, ∀ h : Heap, goodTree h t →
    ∀ k, k + 1 < t.rpath.length →
    (getNode h (rpathD t (k + 1))).parent = some (rpathD t k) := by
  apply itree_mem_ind (fun t => ∀ h : Heap, goodTree h t →
    ∀ k, k + 1 < t.rpath.length →
    (getNode h (rpathD t (k + 1))).parent = some (rpathD t k))
  intro i s cs ih h hg k hk
  obtain ⟨g1, g2, g3⟩ := hg
  rcases List.eq_nil_or_concat cs with hnil | ⟨cs', c, hcs⟩
  · subst hnil
    rw [rpath_cons] at hk
    simp [listRpath] at hk
  · rw [List.concat_eq_append] at hcs
    subst hcs
    have hcmem : c ∈ cs' ++ [c] := by simp
    obtain ⟨hcpar, hcgood⟩ := goodForest_mem g3 c hcmem
    cases k with
    | zero =>
      rw [rpathD_succ, rpathD_zero, rpathD_zero]
      exact hcpar
    | succ m =>
      rw [rpathD_succ, rpathD_succ]
      refine ih c hcmem h hcgood m ?_
      rw [rpath_cons, listRpath_snoc] at hk
      simpa using hk

theorem ascendLoop_rpath (h : Heap) (t : ITree) (hg : goodTree h t) :
    ∀ k m lc, k ≤ m → m < t.rpath.length →
    ascendLoop h k (some (rpathD t m)) lc = .ok (some (rpathD t (m - k)), lc - k) := by
  intro k
  induction k with
  | zero =>
    intro m lc _ _
    rfl
  | succ k ih =>
    intro m lc hkm hm
    have hm1 : 1 ≤ m := by omega
    have hchain : (getNode h (rpathD t m)).parent = some (rpathD t (m - 1)) := by
      have := rpath_parent_chain t h hg (m - 1) (by omega)
      rwa [show m - 1 + 1 = m by omega] at this
    show (match parent h (some (rpathD t m)) with
      | none => Except.error "None parent"
      | some p2 => ascendLoop h k p2 (lc - 1)) = _
    rw [show parent h (some (rpathD t m)) = some ((getNode h (rpathD t m)).parent) from rfl,
      hchain]
    show ascendLoop h k (some (rpathD t (m - 1))) (lc - 1) = _
    rw [ih (m - 1) (lc - 1) (by omega) (by omega)]
    rw [show m - 1 - k = m - (k + 1) by omega, show lc - 1 - k = lc - (k + 1) by omega]

theorem ascendLoop_past_root (h : Heap) (t : ITree) (hg : goodTree h t)
    (hroot : (getNode h t.idx).parent = none) :
    ∀ m lc, m < t.rpath.length →
    ascendLoop h (m + 1) (some (rpathD t m)) lc = .ok (none, lc - (m + 1)) := by
  intro m
  induction m with
  | zero =>
    intro lc _
    show (match parent h (some (rpathD t 0)) with
      | none => Except.error "None parent"
      | some p2 => ascendLoop h 0 p2 (lc - 1)) = _
    rw [show parent h (some (rpathD t 0)) = some ((getNode h (rpathD t 0)).parent) from rfl,
      rpathD_zero, hroot]
    rfl
  | succ m ih =>
    intro lc hm
    have hchain : (getNode h (rpathD t (m + 1))).parent = some (rpathD t m) :=
      rpath_parent_chain t h hg m hm
    show (match parent h (some (rpathD t (m + 1))) with
      | none => Except.error "None parent"
      | some p2 => ascendLoop h (m + 1) p2 (lc - 1)) = _
    rw [show parent h (some (rpathD t (m + 1))) = some ((getNode h (rpathD t (m + 1))).parent)
      from rfl, hchain]
    show ascendLoop h (m + 1) (some (rpathD t m)) (lc - 1) = _
    rw [ih (lc - 1) (by omega)]
    rw [show lc - 1 - (m + 1) = lc - (m + 1 + 1) by omega]

theorem ascendLoop_too_deep (h : Heap) (t : ITree) (hg : goodTree h t)
    (hroot : (getNode h t.idx).parent = none) :
    ∀ m lc k, m < t.rpath.length → m + 1 < k →
    ascendLoop h k (some (rpathD t m)) lc = .error "None parent" := by
  intro m
  induction m with
  | zero =>
    intro lc k _ hk
    obtain ⟨k', rfl⟩ : ∃ k', k = k' + 1 := ⟨k - 1, by omega⟩
    show (match parent h (some (rpathD t 0)) with
      | none => Except.error "None parent"
      | some p2 => ascendLoop h k' p2 (lc - 1)) = _
    rw [show parent h (some (rpathD t 0)) = some ((getNode h (rpathD t 0)).parent) from rfl,
      rpathD_zero, hroot]
    obtain ⟨k'', rfl⟩ : ∃ k'', k' = k'' + 1 := ⟨k' - 1, by omega⟩
    rfl
  | succ m ih =>
    intro lc k hm hk
    obtain ⟨k', rfl⟩ : ∃ k', k = k' + 1 := ⟨k - 1, by omega⟩
    have hchain : (getNode h (rpathD t (m + 1))).parent = some (rpathD t m) :=
      rpath_parent_chain t h hg m hm
    show (match parent h (some (rpathD t (m + 1))) with
      | none => Except.error "None parent"
      | some p2 => ascendLoop h k' p2 (lc - 1)) = _
    rw [show parent h (some (rpathD t (m + 1))) = some ((getNode h (rpathD t (m + 1))).parent)
      from rfl, hchain]
    show ascendLoop h k' (some (rpathD t m)) (lc - 1) = _
    exact ih (lc - 1) k' (by omega) (by omega)

theorem rlast_eq_rpathD (t : ITree) : rlast t = rpathD t (t.rpath.length - 1) := rfl

theorem rlast_attach (t : ITree) (d n : Nat) (lbl : String) (hd : d < t.rpath.length) :
    rlast (attachRight t d n lbl) = n := by
  have h3 := (attachRight_spec d t n lbl hd).2.2.1
  rw [rlast, h3]
  have hl : (List.take (d + 1) t.rpath ++ [n]).length - 1
      = (List.take (d + 1) t.rpath).length := by
    simp
  rw [hl, List.getD_eq_getElem?_getD, List.getElem?_concat_length]
  rfl

/-- The part of the builder invariant tied only to the arena: a forest of
mirror trees whose roots have no parent link, all faithfully stored, covering
the arena exactly, except for a list of floating (allocated but unattached)
indices. -/
structure ForestSt (h : Heap) (fs : List ITree) (extra : List Nat) : Prop where
  good : ∀ t ∈ fs, goodTree h t
  rootpar : ∀ t ∈ fs, (getNode h t.idx).parent = none
  cover : (forestIdx fs ++ extra).Perm (List.range h.length)

theorem ForestSt.nodupAll {h : Heap} {fs : List ITree} {extra : List Nat}
    (H : ForestSt h fs extra) : (forestIdx fs ++ extra).Nodup :=
  (H.cover.nodup_iff).mpr (List.nodup_range _)

theorem ForestSt.mem_lt {h : Heap} {fs : List ITree} {extra : List Nat}
    (H : ForestSt h fs extra) : ∀ x ∈ forestIdx fs ++ extra, x < h.length := by
  intro x hx
  exact List.mem_range.mp (H.cover.mem_iff.mp hx)

/-- Allocating a fresh node leaves the forest intact and floats the new
index. -/
theorem allocFloat {h : Heap} {fs : List ITree} {extra : List Nat}
    (H : ForestSt h fs extra) (d : Option Heading) :
    ForestSt (h ++ [⟨none, [], d⟩]) fs (extra ++ [h.length]) := by
  refine ⟨?_, ?_, ?_⟩
  · intro t ht
    refine goodTree_frame t h _ (H.good t ht) ?_
    intro j hj
    refine getNode_append_lt _ (H.mem_lt j ?_)
    exact List.mem_append_left _ (mem_forestIdx_of_mem_flat ht j hj)
  · intro t ht
    rw [getNode_append_lt _ (H.mem_lt t.idx
      (List.mem_append_left _ (mem_forestIdx_of_mem_flat ht _ (idx_mem_flat t))))]
    exact H.rootpar t ht
  · have h1 : forestIdx fs ++ (extra ++ [h.length])
        = (forestIdx fs ++ extra) ++ [h.length] := by rw [List.append_assoc]
    rw [h1]
    have h2 : (h ++ [(⟨none, [], d⟩ : ArenaNode)]).length = h.length + 1 := by simp
    rw [h2, List.range_succ]
    exact H.cover.append_right [h.length]

/-- A floating node becomes a fresh root-only tree when `add_child` is handed
the absent ancestor: the arena is untouched, only the bookkeeping changes. -/
theorem lostLeaf {h : Heap} {fs : List ITree} {extra : List Nat} {L : Nat} {dat : Heading}
    (H : ForestSt h fs extra) (hL : L ∈ extra)
    (hLnode : getNode h L = ⟨none, [], some dat⟩) :
    ForestSt h (fs ++ [ITree.node L dat.title []]) (extra.erase L) := by
  refine ⟨?_, ?_, ?_⟩
  · intro t ht
    rcases List.mem_append.mp ht with h1 | h1
    · exact H.good t h1
    · have : t = ITree.node L dat.title [] := by simpa using h1
      subst this
      refine ⟨?_, ?_, trivial⟩
      · show ((getNode h L).data.map Heading.title) = some dat.title
        rw [hLnode]
        rfl
      · show (getNode h L).children = childIdxs []
        rw [hLnode]
        rfl
  · intro t ht
    rcases List.mem_append.mp ht with h1 | h1
    · exact H.rootpar t h1
    · have : t = ITree.node L dat.title [] := by simpa using h1
      subst this
      show (getNode h L).parent = none
      rw [hLnode]
  · have h1 : forestIdx (fs ++ [ITree.node L dat.title []]) ++ extra.erase L
      = forestIdx fs ++ ([L] ++ extra.erase L) := by
      rw [forestIdx_append]
      simp [forestIdx, ITree.flatIdx]
    rw [h1]
    refine List.Perm.trans ?_ H.cover
    refine List.Perm.append_left _ ?_
    exact (List.perm_cons_erase hL).symm

/-- Central step lemma: attaching the floating node `L` under the node at
rightmost depth `dq` of the last tree extends that tree by `attachRight` and
unfloats `L`; everything else in the arena is untouched. -/
theorem attachFloat {h : Heap} {init : List ITree} {tl : ITree} {extra : List Nat}
    {L dq : Nat} {dat : Heading} (sz : Nat)
    (H : ForestSt h (init ++ [tl]) extra)
    (hL : L ∈ extra)
    (hLnode : getNode h L = ⟨none, [], some dat⟩)
    (hdq : dq < tl.rpath.length) :
    ForestSt (add_child h sz (some (rpathD tl dq)) (some L)).1
      (init ++ [attachRight tl dq L dat.title]) (extra.erase L) ∧
    (add_child h sz (some (rpathD tl dq)) (some L)).1.length = h.length ∧
    (∀ j, j ≠ rpathD tl dq → j ≠ L →
      getNode (add_child h sz (some (rpathD tl dq)) (some L)).1 j = getNode h j) ∧
    getNode (add_child h sz (some (rpathD tl dq)) (some L)).1 L
      = ⟨some (rpathD tl dq), [], some dat⟩ := by
  have htlmem : tl ∈ init ++ [tl] := by simp
  have hqflat : rpathD tl dq ∈ tl.flatIdx := rpath_sub_flat tl _ (rpathD_mem hdq)
  have hqforest : rpathD tl dq ∈ forestIdx (init ++ [tl]) :=
    mem_forestIdx_of_mem_flat htlmem _ hqflat
  have hall := H.nodupAll
  have hdisj : (forestIdx (init ++ [tl])).Disjoint extra :=
    (List.nodup_append.mp hall).2.2
  have hLq : L ≠ rpathD tl dq := by
    intro hcontra
    exact hdisj (hcontra ▸ hqforest) hL
  have hq_lt : rpathD tl dq < h.length :=
    H.mem_lt _ (List.mem_append_left _ hqforest)
  have hL_lt : L < h.length := H.mem_lt _ (List.mem_append_right _ hL)
  have hface : forestIdx (init ++ [tl]) = forestIdx init ++ tl.flatIdx := by
    rw [forestIdx_append]
    simp [forestIdx]
  have hndforest : (forestIdx (init ++ [tl])).Nodup := hall.of_append_left
  have hinit_tl_disj : ∀ x ∈ forestIdx init, x ∉ tl.flatIdx := by
    intro x hx
    have := List.nodup_append.mp (by rwa [hface] at hndforest)
    exact fun hxc => (List.disjoint_left.mp this.2.2) hx hxc
  set q := rpathD tl dq with hqdef
  set h' := (add_child h sz (some q) (some L)).1 with hh'
  have hlen' : h'.length = h.length := by
    rw [hh']
    simp only [add_child]
    rw [length_setNode, length_setNode]
  have hframe : ∀ j, j ≠ q → j ≠ L → getNode h' j = getNode h j := by
    intro j hjq hjL
    rw [hh']
    simp only [add_child]
    rw [getNode_set_ne _ _ (Ne.symm hjL), getNode_set_ne _ _ (Ne.symm hjq)]
  have hgq : getNode h' q
      = { getNode h q with children := (getNode h q).children ++ [some L] } := by
    rw [hh']
    simp only [add_child]
    rw [getNode_set_ne _ _ hLq, getNode_set_self _ hq_lt]
  have hgL : getNode h' L = ⟨some q, [], some dat⟩ := by
    rw [hh']
    simp only [add_child]
    rw [getNode_set_self _ (by rw [length_setNode]; exact hL_lt),
      getNode_set_ne _ _ (Ne.symm hLq), hLnode]
  have htlflat_sub : tl.flatIdx.Sublist (forestIdx (init ++ [tl]) ++ extra) := by
    refine List.Sublist.trans ?_ (List.sublist_append_left _ _)
    rw [hface]
    exact List.sublist_append_right _ _
  have hndtl : tl.flatIdx.Nodup := hall.sublist htlflat_sub
  have hfresh : ∀ j ∈ tl.flatIdx, j ≠ L := by
    intro j hj hcontra
    exact hdisj (mem_forestIdx_of_mem_flat htlmem j hj) (hcontra ▸ hL)
  have hattachgood : goodTree h' (attachRight tl dq L dat.title) := by
    refine attachRight_good dq tl h h' L dat (H.good tl htlmem) hndtl hfresh hdq ?_ hgq hgL
    intro j hj hjq
    exact hframe j hjq (hfresh j hj)
  refine ⟨⟨?_, ?_, ?_⟩, hlen', hframe, hgL⟩
  · intro t ht
    rcases List.mem_append.mp ht with h1 | h1
    · refine goodTree_frame t h h' (H.good t (List.mem_append_left _ h1)) ?_
      intro j hj
      have hjforest : j ∈ forestIdx init := mem_forestIdx_of_mem_flat h1 j hj
      refine hframe j (fun hc => hinit_tl_disj j hjforest (hc ▸ hqflat)) ?_
      intro hc
      exact hdisj (by rw [hface]; exact List.mem_append_left _ hjforest) (hc ▸ hL)
    · have : t = attachRight tl dq L dat.title := by simpa using h1
      subst this
      exact hattachgood
  · intro t ht
    rcases List.mem_append.mp ht with h1 | h1
    · have hidx : t.idx ∈ forestIdx init := mem_forestIdx_of_mem_flat h1 _ (idx_mem_flat t)
      rw [hframe t.idx (fun hc => hinit_tl_disj _ hidx (hc ▸ hqflat))
        (fun hc => hdisj (by rw [hface]; exact List.mem_append_left _ hidx) (hc ▸ hL))]
      exact H.rootpar t (List.mem_append_left _ h1)
    · have : t = attachRight tl dq L dat.title := by simpa using h1
      subst this
      rw [(attachRight_spec dq tl L dat.title hdq).2.2.2]
      by_cases hcq : tl.idx = q
      · rw [hcq, hgq]
        show (getNode h q).parent = none
        rw [← hcq]
        exact H.rootpar tl htlmem
      · rw [hframe tl.idx hcq (hfresh tl.idx (idx_mem_flat tl))]
        exact H.rootpar tl htlmem
  · have hflatat : (attachRight tl dq L dat.title).flatIdx = tl.flatIdx ++ [L] :=
      (attachRight_spec dq tl L dat.title hdq).1
    have h1 : forestIdx (init ++ [attachRight tl dq L dat.title]) ++ extra.erase L
        = forestIdx init ++ (tl.flatIdx ++ ([L] ++ extra.erase L)) := by
      rw [forestIdx_append]
      simp only [forestIdx, hflatat]
      rw [List.append_nil, List.append_assoc, List.append_assoc]
    rw [h1, hlen']
    refine List.Perm.trans ?_ H.cover
    rw [hface, List.append_assoc]
    refine List.Perm.append_left _ ?_
    refine List.Perm.append_left _ ?_
    exact (List.perm_cons_erase hL).symm

theorem rpath_len_pos (t : ITree) : 0 < t.rpath.length :=
  List.length_pos.mpr (rpath_ne_nil t)

/-- Running the placeholder loop from the deepest rightmost node of the last
tree deepens that tree by `n` placeholders; floating nodes are untouched. -/
theorem bridge_forest (n : Nat) :
    ∀ (h : Heap) (init : List ITree) (tl : ITree) (extra : List Nat) (sz lc : Nat),
    ForestSt h (init ++ [tl]) extra →
    ∃ tl' : ITree,
      ForestSt (bridgeLoop n h sz (some (rlast tl)) lc).1 (init ++ [tl']) extra ∧
      (bridgeLoop n h sz (some (rlast tl)) lc).2.1 = sz + n ∧
      (bridgeLoop n h sz (some (rlast tl)) lc).2.2.1 = some (rlast tl') ∧
      (bridgeLoop n h sz (some (rlast tl)) lc).1.length = h.length + n ∧
      (∀ x ∈ extra, getNode (bridgeLoop n h sz (some (rlast tl)) lc).1 x = getNode h x) ∧
      tl'.idx = tl.idx := by
  induction n with
  | zero =>
    intro h init tl extra sz lc H
    exact ⟨tl, H, rfl, rfl, rfl, fun x _ => rfl, rfl⟩
  | succ m ih =>
    intro h init tl extra sz lc H
    have hdq : tl.rpath.length - 1 < tl.rpath.length := by
      have := rpath_len_pos tl
      omega
    have hstep : bridgeLoop (m + 1) h sz (some (rlast tl)) lc
        = bridgeLoop m
            (add_child (h ++ [⟨none, [], some ⟨0, "[]"⟩⟩]) sz (some (rlast tl))
              (some h.length)).1
            (add_child (h ++ [⟨none, [], some ⟨0, "[]"⟩⟩]) sz (some (rlast tl))
              (some h.length)).2
            (some h.length) (lc + 1) := rfl
    have Hal : ForestSt (h ++ [⟨none, [], some ⟨0, "[]"⟩⟩]) (init ++ [tl])
        (extra ++ [h.length]) := allocFloat H (some ⟨0, "[]"⟩)
    have hLnode : getNode (h ++ [⟨none, [], some (⟨0, "[]"⟩ : Heading)⟩]) h.length
        = ⟨none, [], some ⟨0, "[]"⟩⟩ := getNode_append_self h _
    have hrl : rlast tl = rpathD tl (tl.rpath.length - 1) := rlast_eq_rpathD tl
    obtain ⟨F1, F2, F3, F4⟩ :=
      attachFloat (L := h.length) sz Hal
        (List.mem_append_right _ (by simp)) hLnode hdq
    have hfresh_extra : h.length ∉ extra := by
      intro hx
      have := H.mem_lt h.length (List.mem_append_right _ hx)
      omega
    have herase : (extra ++ [h.length]).erase h.length = extra := by
      rw [List.erase_append_right _ hfresh_extra]
      simp
    rw [herase] at F1
    set tl1 := attachRight tl (tl.rpath.length - 1) h.length (Heading.title ⟨0, "[]"⟩)
      with htl1
    have hrl1 : rlast tl1 = h.length := rlast_attach tl _ _ _ hdq
    have hstep2 : (add_child (h ++ [⟨none, [], some ⟨0, "[]"⟩⟩]) sz (some (rlast tl))
        (some h.length)) = (add_child (h ++ [⟨none, [], some ⟨0, "[]"⟩⟩]) sz
        (some (rpathD tl (tl.rpath.length - 1))) (some h.length)) := by rw [hrl]
    obtain ⟨tl2, G1, G2, G3, G4, G5, G6⟩ := ih
      (add_child (h ++ [⟨none, [], some ⟨0, "[]"⟩⟩]) sz (some (rlast tl)) (some h.length)).1
      init tl1 extra
      (add_child (h ++ [⟨none, [], some ⟨0, "[]"⟩⟩]) sz (some (rlast tl)) (some h.length)).2
      (lc + 1) (by rw [hstep2]; exact F1)
    have hlen1 : (add_child (h ++ [⟨none, [], some ⟨0, "[]"⟩⟩]) sz (some (rlast tl))
        (some h.length)).1.length = h.length + 1 := by
      rw [hstep2, F2]
      simp
    have hsz1 : (add_child (h ++ [⟨none, [], some ⟨0, "[]"⟩⟩]) sz (some (rlast tl))
        (some h.length)).2 = sz + 1 := add_child_sz _ _ _ _
    rw [hrl1] at G1 G2 G3 G4 G5
    refine ⟨tl2, ?_, ?_, ?_, ?_, ?_, ?_⟩
    · rw [hstep]
      exact G1
    · rw [hstep, hsz1]
      rw [hsz1] at G2
      rw [G2]
      omega
    · rw [hstep]
      exact G3
    · rw [hstep]
      rw [G4, hlen1]
      omega
    · intro x hx
      have hxlt : x < h.length := H.mem_lt x (List.mem_append_right _ hx)
      have hxq : x ≠ rpathD tl (tl.rpath.length - 1) := by
        intro hc
        have hqf : rpathD tl (tl.rpath.length - 1) ∈ forestIdx (init ++ [tl]) :=
          mem_forestIdx_of_mem_flat (by simp) _ (rpath_sub_flat tl _ (rpathD_mem hdq))
        exact (List.disjoint_left.mp (List.nodup_append.mp H.nodupAll).2.2)
          hqf (hc ▸ hx)
      rw [hstep, G5 x hx, hstep2, F3 x hxq (by omega)]
      exact getNode_append_lt _ hxlt
    · rw [G6, htl1, (attachRight_spec _ tl _ _ hdq).2.2.2]

/-! ### Locating nodes inside a mirror forest -/

theorem mem_flat_of_mem_forest : ∀ (fs : List ITree) (x : Nat), x ∈ forestIdx fs →
    ∃ t ∈ fs, x ∈ t.flatIdx := by
  intro fs
  induction fs with
  | nil => intro x hx; cases hx
  | cons c cs ih =>
    intro x hx
    rcases List.mem_append.mp hx with h1 | h1
    · exact ⟨c, List.mem_cons_self _ _, h1⟩
    · obtain ⟨t, ht, hxt⟩ := ih x h1
      exact ⟨t, List.mem_cons_of_mem _ ht, hxt⟩

theorem flat_len_le_forest : ∀ {cs : List ITree} {c : ITree}, c ∈ cs →
    c.flatIdx.length ≤ (forestIdx cs).length := by
  intro cs
  induction cs with
  | nil => intro c hc; cases hc
  | cons y ys ih =>
    intro c hc
    have hl : forestIdx (y :: ys) = y.flatIdx ++ forestIdx ys := rfl
    rcases List.mem_cons.mp hc with h | h
    · subst h
      rw [hl, List.length_append]
      omega
    · have := ih h
      rw [hl, List.length_append]
      omega

theorem flat_len_pos (t : ITree) : 1 ≤ t.flatIdx.length :=
  List.length_pos.mpr (List.ne_nil_of_mem (idx_mem_flat t))

theorem mem_flat_of_mem_children {t c : ITree} (hc : c ∈ t.children) :
    ∀ x ∈ c.flatIdx, x ∈ t.flatIdx := by
  intro x hx
  cases t with
  | node i s cs =>
    exact List.mem_cons_of_mem _ (mem_forestIdx_of_mem_flat hc x hx)

theorem BelowT_snoc : ∀ {t s : ITree} {k : Nat}, BelowT t s k →
    ∀ {c : ITree}, c ∈ s.children → BelowT t c (k + 1) := by
  intro t s k hb
  induction hb with
  | refl t => intro c hc; exact .step hc (.refl c)
  | step hmem _ ih => intro c hc; exact .step hmem (ih hc)

theorem below_flat : ∀ {t s : ITree} {k : Nat}, BelowT t s k →
    ∀ x ∈ s.flatIdx, x ∈ t.flatIdx := by
  intro t s k hb
  induction hb with
  | refl t => intro x hx; exact hx
  | step hmem _ ih =>
    intro x hx
    exact mem_flat_of_mem_children hmem x (ih x hx)

theorem below_len : ∀ {t s : ITree} {k : Nat}, BelowT t s k →
    k + s.flatIdx.length ≤ t.flatIdx.length := by
  intro t s k hb
  induction hb with
  | refl t => omega
  | @step t c s k hmem _ ih =>
    cases t with
    | node i str cs =>
      have h1 : c.flatIdx.length ≤ (forestIdx cs).length := flat_len_le_forest hmem
      have h2 : (ITree.node i str cs).flatIdx.length = 1 + (forestIdx cs).length := by
        show (i :: forestIdx cs).length = _
        simp
        omega
      rw [h2]
      omega

theorem below_goodTree {h : Heap} : ∀ {t s : ITree} {k : Nat}, BelowT t s k →
    goodTree h t → goodTree h s := by
  intro t s k hb
  induction hb with
  | refl t => intro hg; exact hg
  | @step t c s k hmem _ ih =>
    intro hg
    cases t with
    | node i str cs =>
      obtain ⟨_, _, g3⟩ := hg
      exact ih (goodForest_mem g3 c hmem).2

theorem mem_flat_below : ∀ (t : ITree) (i : Nat), i ∈ t.flatIdx →
    ∃ s k, BelowT t s k ∧ s.idx = i := by
  apply itree_mem_ind (fun t => ∀ i : Nat, i ∈ t.flatIdx →
    ∃ s k, BelowT t s k ∧ s.idx = i)
  intro i0 s0 cs ih x hx
  rcases List.mem_cons.mp hx with h | h
  · exact ⟨ITree.node i0 s0 cs, 0, .refl _, h.symm⟩
  · obtain ⟨c, hc, hxc⟩ := mem_flat_of_mem_forest cs x h
    obtain ⟨s, k, hb, hsx⟩ := ih c hc x hxc
    exact ⟨s, k + 1, .step (show c ∈ (ITree.node i0 s0 cs).children from hc) hb, hsx⟩

/-! ### `_depth` along parent chains -/

theorem depthAux_step (h : Heap) (root : Pos) (f : Nat) (cursor : Pos) (d : Nat) :
    depthAux h root (f+1) cursor d
      = if cursor = root then some d
        else match parent h cursor with
          | none => none
          | some c => depthAux h root f c (d + 1) := rfl

/-- Reaching the root position ends the climb with the running count. -/
theorem depthAux_root (h : Heap) (f d : Nat) :
    depthAux h (some 0) (f+1) (some 0) d = some d := by
  rw [depthAux_step, if_pos rfl]

/-- Starting from a parentless node other than the arena root, the climb steps
to the absent position and then fails: the `?` propagates `none`. -/
theorem depthAux_lost (h : Heap) {x : Nat} (hx : x ≠ 0)
    (hpar : (getNode h x).parent = none) (f d : Nat) :
    depthAux h (some 0) (f+2) (some x) d = none := by
  rw [depthAux_step, if_neg (by simpa using hx)]
  show depthAux h (some 0) (f+1) ((getNode h x).parent) (d + 1) = none
  rw [hpar]
  rfl

/-- Climbing from a node `k` levels below `t` spends `k` fuel and `k` counter
increments to reach `t`, as long as no strict descendant is the arena root. -/
theorem depth_climb {h : Heap} {t s : ITree} {k : Nat} (hb : BelowT t s k) :
    goodTree h t → (∀ x ∈ forestIdx t.children, x ≠ 0) →
    ∀ f d, depthAux h (some 0) (f + k) (some s.idx) d
      = depthAux h (some 0) f (some t.idx) (d + k) := by
  induction hb with
  | refl t =>
    intro _ _ f d
    simp
  | @step t c s k hmem _ ih =>
    intro hg hnz f d
    cases t with
    | node i str cs =>
      obtain ⟨g1, g2, g3⟩ := hg
      have hcs : c ∈ cs := hmem
      obtain ⟨hcpar, hcgood⟩ := goodForest_mem g3 c hcs
      have hcnz : c.idx ≠ 0 :=
        hnz c.idx (mem_forestIdx_of_mem_flat hcs _ (idx_mem_flat c))
      have hnzc : ∀ x ∈ forestIdx c.children, x ≠ 0 := by
        intro x hx
        refine hnz x (mem_forestIdx_of_mem_flat hcs x ?_)
        cases c with
        | node ci cstr ccs => exact List.mem_cons_of_mem _ hx
      rw [show f + (k + 1) = (f + 1) + k by omega, ih hcgood hnzc (f+1) d]
      rw [depthAux_step, if_neg (by simpa using hcnz)]
      show depthAux h (some 0) f ((getNode h c.idx).parent) (d + k + 1) = _
      rw [hcpar]
      rfl

/-! ### `_height` on faithful trees -/

theorem heightOf_step (h : Heap) (f : Nat) (n : Nat) :
    heightOf h (f+1) (some n)
      = match heightFold h f ((getNode h n).children) 0 with
        | none => none
        | some m => some (m + 1) := by
  simp [heightOf]

theorem heightFold_nil (h : Heap) (f : Nat) (acc : Nat) :
    heightFold h f [] acc = some acc := by
  simp [heightFold]

theorem heightFold_cons (h : Heap) (f : Nat) (c : Nat) (rest : List Pos) (acc : Nat) :
    heightFold h f (some c :: rest) acc
      = match heightOf h f (some c) with
        | none => none
        | some v => heightFold h f rest (max acc v) := by
  simp [heightFold]

/-- On a node the arena mirrors, `_height` returns exactly the mirror height,
for any sufficient fuel. -/
theorem heightOf_good : ∀ (t : ITree) (h : Heap), goodTree h t →
    ∀ f, t.flatIdx.length ≤ f → heightOf h f (some t.idx) = some t.ht := by
  apply itree_mem_ind (fun t => ∀ h : Heap, goodTree h t →
    ∀ f, t.flatIdx.length ≤ f → heightOf h f (some t.idx) = some t.ht)
  intro i s cs ih h hg f hf
  obtain ⟨g1, g2, g3⟩ := hg
  have hflen : (ITree.node i s cs).flatIdx.length = 1 + (forestIdx cs).length := by
    show (i :: forestIdx cs).length = _
    simp
    omega
  obtain ⟨f', rfl⟩ : ∃ f', f = f' + 1 := ⟨f - 1, by omega⟩
  have hfold : ∀ cs0 : List ITree,
      (∀ c ∈ cs0, heightOf h f' (some c.idx) = some c.ht) →
      ∀ acc, heightFold h f' (childIdxs cs0) acc = some (htsAcc cs0 acc) := by
    intro cs0
    induction cs0 with
    | nil =>
      intro _ acc
      exact heightFold_nil h f' acc
    | cons c cs1 ihc =>
      intro hall acc
      have hcl : childIdxs (c :: cs1) = some c.idx :: childIdxs cs1 := rfl
      rw [hcl, heightFold_cons, hall c (List.mem_cons_self _ _)]
      exact ihc (fun x hx => hall x (List.mem_cons_of_mem _ hx)) (max acc c.ht)
  have hch : ∀ c ∈ cs, heightOf h f' (some c.idx) = some c.ht := by
    intro c hc
    refine ih c hc h (goodForest_mem g3 c hc).2 f' ?_
    have := flat_len_le_forest hc
    omega
  show heightOf h (f' + 1) (some (ITree.node i s cs).idx) = some (ITree.node i s cs).ht
  rw [show (ITree.node i s cs).idx = i from rfl, heightOf_step, g2, hfold cs hch 0]
  rfl

/-- The per-child heights listed against the stored child positions. -/
theorem heightFold_forall₂ (h : Heap) (f : Nat) :
    ∀ cs : List ITree, (∀ c ∈ cs, heightOf h f (some c.idx) = some c.ht) →
    List.Forall₂ (fun p v => heightOf h f p = some v) (childIdxs cs)
      (cs.map ITree.ht) := by
  intro cs
  induction cs with
  | nil => intro _; exact .nil
  | cons c cs1 ih =>
    intro hall
    exact .cons (hall c (List.mem_cons_self _ _))
      (ih fun x hx => hall x (List.mem_cons_of_mem _ hx))

theorem htsAcc_foldl : ∀ (cs : List ITree) (acc : Nat),
    htsAcc cs acc = (cs.map ITree.ht).foldl max acc := by
  intro cs
  induction cs with
  | nil => intro acc; rfl
  | cons c cs1 ih =>
    intro acc
    show htsAcc cs1 (max acc c.ht) = _
    rw [ih (max acc c.ht)]
    rfl

/-! ### The builder's arena invariant -/

theorem rlast_leaf (n : Nat) (s : String) : rlast (ITree.node n s []) = n := by
  rw [rlast, rpath_cons]
  have h0 : listRpath [] = [] := by simp [listRpath]
  rw [h0]
  rfl

theorem ascendLoop_none (h : Heap) (k lc : Nat) :
    ascendLoop h (k+1) none lc = .error "None parent" := rfl

/-- The state invariant `construct` maintains: the arena is exactly a forest of
faithfully mirrored trees (the first rooted at address 0, the arena root),
there are no floating allocations between iterations, the root pointer is the
arena root, and the position cursor sits on the deepest rightmost node of the
most recently extended tree. -/
def StInv (st : BuildState) : Prop :=
  ∃ (t0 : ITree) (rest init : List ITree) (tl : ITree),
    t0 :: rest = init ++ [tl] ∧
    t0.idx = 0 ∧
    ForestSt st.heap (init ++ [tl]) [] ∧
    st.root = some 0 ∧
    st.position_cursor = some (rlast tl)

theorem split_keep {t0 tl tl' : ITree} {rest init : List ITree}
    (hsplit : t0 :: rest = init ++ [tl]) (h0 : t0.idx = 0) (hidx : tl'.idx = tl.idx) :
    ∃ (t0' : ITree) (rest' : List ITree), t0' :: rest' = init ++ [tl'] ∧ t0'.idx = 0 := by
  cases init with
  | nil =>
    injection hsplit with ha hb
    exact ⟨tl', [], rfl, by rw [hidx, ← ha, h0]⟩
  | cons i0 init1 =>
    injection hsplit with ha hb
    exact ⟨i0, init1 ++ [tl'], rfl, by rw [← ha, h0]⟩

/-- `initState` satisfies the invariant: the arena holds one root-only tree. -/
theorem stInv_init (base : Nat) : StInv (initState base) := by
  refine ⟨ITree.node 0 "ROOT" [], [], [], ITree.node 0 "ROOT" [], rfl, rfl, ⟨?_, ?_, ?_⟩,
    rfl, ?_⟩
  · intro t ht
    have : t = ITree.node 0 "ROOT" [] := by simpa using ht
    subst this
    exact ⟨rfl, rfl, trivial⟩
  · intro t ht
    have : t = ITree.node 0 "ROOT" [] := by simpa using ht
    subst this
    rfl
  · show (forestIdx ([] ++ [ITree.node 0 "ROOT" []]) ++ []).Perm
      (List.range (initState base).heap.length)
    simp [forestIdx, ITree.flatIdx, initState, List.range_succ]
  · show some 0 = some (rlast (ITree.node 0 "ROOT" []))
    rw [rlast_leaf]

/-- One builder iteration that returns `Ok` preserves the invariant, whichever
of the four cases it takes and whether or not the heading is silently lost. -/
theorem stInv_step (st : BuildState) (e : Heading) (st' : BuildState)
    (hinv : StInv st) (hok : constructStep st e = .ok st') : StInv st' := by
  obtain ⟨t0, rest, init, tl, hsplit, ht0, HF, hroot, hpc⟩ := hinv
  have htlmem : tl ∈ init ++ [tl] := by simp
  have hdq : tl.rpath.length - 1 < tl.rpath.length := by
    have := rpath_len_pos tl
    omega
  have hrl : rlast tl = rpathD tl (tl.rpath.length - 1) := rfl
  have hrlflat : rlast tl ∈ tl.flatIdx := by
    rw [hrl]
    exact rpath_sub_flat tl _ (rpathD_mem hdq)
  have hrllt : rlast tl < st.heap.length :=
    HF.mem_lt _ (List.mem_append_left _ (mem_forestIdx_of_mem_flat htlmem _ hrlflat))
  have Hal : ForestSt (st.heap ++ [⟨none, [], some e⟩]) (init ++ [tl]) [st.heap.length] := by
    have := allocFloat HF (some e)
    rwa [List.nil_append] at this
  have hLnode : getNode (st.heap ++ [⟨none, [], some e⟩]) st.heap.length
      = ⟨none, [], some e⟩ := getNode_append_self _ _
  by_cases h1 : e.level = st.level_cursor + 1
  · -- child case: attach under the cursor
    rw [constructStep_child st e h1] at hok
    simp only [alloc] at hok
    rw [hpc, show rlast tl = rpathD tl (tl.rpath.length - 1) from rfl] at hok
    obtain ⟨F1, F2, F3, F4⟩ := attachFloat (L := st.heap.length) st.size Hal
      (by simp) hLnode hdq
    rw [show ([st.heap.length].erase st.heap.length) = [] by simp] at F1
    have hget : get (add_child (st.heap ++ [⟨none, [], some e⟩]) st.size
        (some (rpathD tl (tl.rpath.length - 1))) (some st.heap.length)).1
        (some st.heap.length) = some e := by
      show (getNode (add_child (st.heap ++ [⟨none, [], some e⟩]) st.size
        (some (rpathD tl (tl.rpath.length - 1))) (some st.heap.length)).1
        st.heap.length).data = some e
      rw [F4]
    rw [hget] at hok
    injection hok with hok2
    subst hok2
    have hidx : (attachRight tl (tl.rpath.length - 1) st.heap.length e.title).idx = tl.idx :=
      (attachRight_spec _ tl _ _ hdq).2.2.2
    obtain ⟨t0', rest', hsp', h0'⟩ := split_keep hsplit ht0 hidx
    refine ⟨t0', rest', init, attachRight tl (tl.rpath.length - 1) st.heap.length e.title,
      hsp', h0', F1, hroot, ?_⟩
    show some st.heap.length = some (rlast _)
    rw [rlast_attach tl _ _ _ hdq]
  · by_cases h2 : st.level_cursor + 1 < e.level
    · -- gap case: bridge with placeholders, then attach the floating real node
      rw [constructStep_gap st e h2] at hok
      simp only [alloc] at hok
      rw [hpc] at hok
      obtain ⟨tl1, G1, G2, G3, G4, G5, G6⟩ :=
        bridge_forest (e.level - st.level_cursor - 1) (st.heap ++ [⟨none, [], some e⟩])
          init tl [st.heap.length] st.size st.level_cursor Hal
      have hdq1 : tl1.rpath.length - 1 < tl1.rpath.length := by
        have := rpath_len_pos tl1
        omega
      have hLnode1 : getNode (bridgeLoop (e.level - st.level_cursor - 1)
          (st.heap ++ [⟨none, [], some e⟩]) st.size (some (rlast tl))
          st.level_cursor).1 st.heap.length = ⟨none, [], some e⟩ := by
        rw [G5 st.heap.length (by simp), hLnode]
      obtain ⟨F1, F2, F3, F4⟩ := attachFloat (L := st.heap.length)
        (bridgeLoop (e.level - st.level_cursor - 1) (st.heap ++ [⟨none, [], some e⟩])
          st.size (some (rlast tl)) st.level_cursor).2.1
        G1 (by simp) hLnode1 hdq1
      rw [show ([st.heap.length].erase st.heap.length) = [] by simp] at F1
      rw [G3, show rlast tl1 = rpathD tl1 (tl1.rpath.length - 1) from rfl] at hok
      have hget : get (add_child (bridgeLoop (e.level - st.level_cursor - 1)
          (st.heap ++ [⟨none, [], some e⟩]) st.size (some (rlast tl)) st.level_cursor).1
          (bridgeLoop (e.level - st.level_cursor - 1) (st.heap ++ [⟨none, [], some e⟩])
            st.size (some (rlast tl)) st.level_cursor).2.1
          (some (rpathD tl1 (tl1.rpath.length - 1))) (some st.heap.length)).1
          (some st.heap.length) = some e := by
        show (getNode (add_child (bridgeLoop (e.level - st.level_cursor - 1)
            (st.heap ++ [⟨none, [], some e⟩]) st.size (some (rlast tl)) st.level_cursor).1
            (bridgeLoop (e.level - st.level_cursor - 1) (st.heap ++ [⟨none, [], some e⟩])
              st.size (some (rlast tl)) st.level_cursor).2.1
            (some (rpathD tl1 (tl1.rpath.length - 1))) (some st.heap.length)).1
            st.heap.length).data = some e
        rw [F4]
      rw [hget] at hok
      injection hok with hok2
      subst hok2
      have hidx : (attachRight tl1 (tl1.rpath.length - 1) st.heap.length e.title).idx
          = tl.idx := by
        rw [(attachRight_spec _ tl1 _ _ hdq1).2.2.2, G6]
      obtain ⟨t0', rest', hsp', h0'⟩ := split_keep hsplit ht0 hidx
      refine ⟨t0', rest', init,
        attachRight tl1 (tl1.rpath.length - 1) st.heap.length e.title,
        hsp', h0', F1, hroot, ?_⟩
      show some st.heap.length = some (rlast _)
      rw [rlast_attach tl1 _ _ _ hdq1]
    · by_cases h3 : e.level = st.level_cursor
      · -- sibling case: attach under the parent of the cursor
        rw [constructStep_sibling st e h3] at hok
        simp only [alloc] at hok
        rw [hpc] at hok
        simp only [parent] at hok
        by_cases hLr : 2 ≤ tl.rpath.length
        · -- the cursor has a parent inside the tree
          have hchain : (getNode st.heap (rpathD tl (tl.rpath.length - 1))).parent
              = some (rpathD tl (tl.rpath.length - 2)) := by
            have := rpath_parent_chain tl st.heap (HF.good tl htlmem)
              (tl.rpath.length - 2) (by omega)
            rwa [show tl.rpath.length - 2 + 1 = tl.rpath.length - 1 by omega] at this
          have hparfield : (getNode (st.heap ++ [⟨none, [], some e⟩]) (rlast tl)).parent
              = some (rpathD tl (tl.rpath.length - 2)) := by
            rw [getNode_append_lt _ hrllt, hrl, hchain]
          rw [hparfield] at hok
          have hdq2 : tl.rpath.length - 2 < tl.rpath.length := by omega
          obtain ⟨F1, F2, F3, F4⟩ := attachFloat (L := st.heap.length)
            st.size Hal (by simp) hLnode hdq2
          rw [show ([st.heap.length].erase st.heap.length) = [] by simp] at F1
          injection hok with hok2
          subst hok2
          have hidx : (attachRight tl (tl.rpath.length - 2) st.heap.length e.title).idx
              = tl.idx := (attachRight_spec _ tl _ _ hdq2).2.2.2
          obtain ⟨t0', rest', hsp', h0'⟩ := split_keep hsplit ht0 hidx
          refine ⟨t0', rest', init,
            attachRight tl (tl.rpath.length - 2) st.heap.length e.title,
            hsp', h0', F1, hroot, ?_⟩
          show some st.heap.length = some (rlast _)
          rw [rlast_attach tl _ _ _ hdq2]
        · -- the cursor is the root of its tree: the heading is silently lost
          have hLr1 : tl.rpath.length - 1 = 0 := by omega
          have hparfield : (getNode (st.heap ++ [⟨none, [], some e⟩]) (rlast tl)).parent
              = none := by
            rw [getNode_append_lt _ hrllt, hrl, hLr1, rpathD_zero]
            exact HF.rootpar tl htlmem
          rw [hparfield] at hok
          simp only [add_child] at hok
          injection hok with hok2
          subst hok2
          have Hlost := lostLeaf Hal (by simp) hLnode
          rw [show ([st.heap.length].erase st.heap.length) = [] by simp] at Hlost
          refine ⟨t0, rest ++ [ITree.node st.heap.length e.title []],
            init ++ [tl], ITree.node st.heap.length e.title [], ?_, ht0, Hlost, hroot, ?_⟩
          · show t0 :: (rest ++ [ITree.node st.heap.length e.title []]) = _
            rw [← List.cons_append, hsplit]
          · show some st.heap.length = some (rlast _)
            rw [rlast_leaf]
      · -- ascend case
        have h4 : e.level < st.level_cursor := by omega
        rw [constructStep_ascend st e h4] at hok
        simp only [alloc] at hok
        rw [hpc] at hok
        simp only [parent] at hok
        by_cases hLr : 2 ≤ tl.rpath.length
        · have hchain : (getNode st.heap (rpathD tl (tl.rpath.length - 1))).parent
              = some (rpathD tl (tl.rpath.length - 2)) := by
            have := rpath_parent_chain tl st.heap (HF.good tl htlmem)
              (tl.rpath.length - 2) (by omega)
            rwa [show tl.rpath.length - 2 + 1 = tl.rpath.length - 1 by omega] at this
          have hparfield : (getNode (st.heap ++ [⟨none, [], some e⟩]) (rlast tl)).parent
              = some (rpathD tl (tl.rpath.length - 2)) := by
            rw [getNode_append_lt _ hrllt, hrl, hchain]
          rw [hparfield] at hok
          by_cases hdeep : st.level_cursor - e.level ≤ tl.rpath.length - 2
          · -- the ascend target is inside the tree
            have hasc := ascendLoop_rpath (st.heap ++ [⟨none, [], some e⟩]) tl
              (Hal.good tl htlmem) (st.level_cursor - e.level) (tl.rpath.length - 2)
              st.level_cursor hdeep (by omega)
            simp only [hasc] at hok
            have hdq3 : tl.rpath.length - 2 - (st.level_cursor - e.level)
                < tl.rpath.length := by omega
            obtain ⟨F1, F2, F3, F4⟩ := attachFloat (L := st.heap.length) st.size Hal
              (by simp) hLnode hdq3
            rw [show ([st.heap.length].erase st.heap.length) = [] by simp] at F1
            have hget : get (add_child (st.heap ++ [⟨none, [], some e⟩]) st.size
                (some (rpathD tl (tl.rpath.length - 2 - (st.level_cursor - e.level))))
                (some st.heap.length)).1 (some st.heap.length) = some e := by
              show (getNode (add_child (st.heap ++ [⟨none, [], some e⟩]) st.size
                (some (rpathD tl (tl.rpath.length - 2 - (st.level_cursor - e.level))))
                (some st.heap.length)).1 st.heap.length).data = some e
              rw [F4]
            rw [hget] at hok
            injection hok with hok2
            subst hok2
            have hidx : (attachRight tl
                (tl.rpath.length - 2 - (st.level_cursor - e.level))
                st.heap.length e.title).idx = tl.idx :=
              (attachRight_spec _ tl _ _ hdq3).2.2.2
            obtain ⟨t0', rest', hsp', h0'⟩ := split_keep hsplit ht0 hidx
            refine ⟨t0', rest', init,
              attachRight tl (tl.rpath.length - 2 - (st.level_cursor - e.level))
                st.heap.length e.title,
              hsp', h0', F1, hroot, ?_⟩
            show some st.heap.length = some (rlast _)
            rw [rlast_attach tl _ _ _ hdq3]
          · by_cases hexact : st.level_cursor - e.level = tl.rpath.length - 1
            · -- target exactly one above the tree root: silently lost
              have hasc := ascendLoop_past_root (st.heap ++ [⟨none, [], some e⟩]) tl
                (Hal.good tl htlmem) (Hal.rootpar tl htlmem) (tl.rpath.length - 2)
                st.level_cursor (by omega)
              rw [show tl.rpath.length - 2 + 1 = st.level_cursor - e.level by omega]
                at hasc
              simp only [hasc] at hok
              simp only [add_child] at hok
              have hget : get (st.heap ++ [⟨none, [], some e⟩]) (some st.heap.length)
                  = some e := by
                show (getNode (st.heap ++ [⟨none, [], some e⟩]) st.heap.length).data
                  = some e
                rw [hLnode]
              rw [hget] at hok
              injection hok with hok2
              subst hok2
              have Hlost := lostLeaf Hal (by simp) hLnode
              rw [show ([st.heap.length].erase st.heap.length) = [] by simp] at Hlost
              refine ⟨t0, rest ++ [ITree.node st.heap.length e.title []],
                init ++ [tl], ITree.node st.heap.length e.title [], ?_, ht0, Hlost,
                hroot, ?_⟩
              · show t0 :: (rest ++ [ITree.node st.heap.length e.title []]) = _
                rw [← List.cons_append, hsplit]
              · show some st.heap.length = some (rlast _)
                rw [rlast_leaf]
            · -- target more than one above the root: the loop panics
              have hasc := ascendLoop_too_deep (st.heap ++ [⟨none, [], some e⟩]) tl
                (Hal.good tl htlmem) (Hal.rootpar tl htlmem) (tl.rpath.length - 2)
                st.level_cursor (st.level_cursor - e.level) (by omega) (by omega)
              rw [hasc] at hok
              simp at hok
        · -- the cursor is the root of its tree: one step to the absent position
          have hLr1 : tl.rpath.length - 1 = 0 := by omega
          have hparfield : (getNode (st.heap ++ [⟨none, [], some e⟩]) (rlast tl)).parent
              = none := by
            rw [getNode_append_lt _ hrllt, hrl, hLr1, rpathD_zero]
            exact HF.rootpar tl htlmem
          rw [hparfield] at hok
          by_cases hd0 : st.level_cursor - e.level = 0
          · -- zero further iterations: the heading is silently lost below no node
            rw [hd0] at hok
            show _
            simp only [ascendLoop] at hok
            simp only [add_child] at hok
            have hget : get (st.heap ++ [⟨none, [], some e⟩]) (some st.heap.length)
                = some e := by
              show (getNode (st.heap ++ [⟨none, [], some e⟩]) st.heap.length).data
                = some e
              rw [hLnode]
            rw [hget] at hok
            injection hok with hok2
            subst hok2
            have Hlost := lostLeaf Hal (by simp) hLnode
            rw [show ([st.heap.length].erase st.heap.length) = [] by simp] at Hlost
            refine ⟨t0, rest ++ [ITree.node st.heap.length e.title []],
              init ++ [tl], ITree.node st.heap.length e.title [], ?_, ht0, Hlost,
              hroot, ?_⟩
            · show t0 :: (rest ++ [ITree.node st.heap.length e.title []]) = _
              rw [← List.cons_append, hsplit]
            · show some st.heap.length = some (rlast _)
              rw [rlast_leaf]
          · -- at least one further iteration on the absent position: panic
            obtain ⟨d, hd⟩ : ∃ d, st.level_cursor - e.level = d + 1 :=
              ⟨st.level_cursor - e.level - 1, by omega⟩
            rw [hd, ascendLoop_none] at hok
            simp at hok

/-- The invariant holds of every state the builder returns. -/
theorem constructGo_inv : ∀ (data : List Heading) (st st' : BuildState),
    StInv st → constructGo st data = .ok st' → StInv st' := by
  intro data
  induction data with
  | nil =>
    intro st st' hinv h
    injection h with h2
    subst h2
    exact hinv
  | cons e rest ih =>
    intro st st' hinv h
    simp only [constructGo] at h
    cases hstep : constructStep st e with
    | error s =>
      rw [hstep] at h
      simp at h
    | ok stm =>
      rw [hstep] at h
      exact ih stm st' (stInv_step st e stm hinv hstep) h

theorem construct_inv (base : Nat) (data : List Heading) (st : BuildState)
    (hok : construct base data = .ok st) : StInv st :=
  constructGo_inv data (initState base) st (stInv_init base) hok

/-! ### Claim C4 (amended): what `parent` really returns on built trees -/

/-- C4 (amended). On every tree the builder returns: `parent` of the absent
position is absent; `parent` of the root position is not absent but the present
answer `some none` wrapping the absent position; and for every node `j` stored
as a child of a node `i`, `parent` returns `some (some i)` — the wrapped parent
position — which is unique, since no node sits in two children lists. -/
theorem parent_of_built_tree_characterization (base : Nat) (data : List Heading)
    (st : BuildState) (hok : construct base data = .ok st) :
    parent st.heap none = none ∧
    parent st.heap st.root = some none ∧
    (∀ i j : Nat, some j ∈ (getNode st.heap i).children →
      parent st.heap (some j) = some (some i)) ∧
    (∀ i i' j : Nat, some j ∈ (getNode st.heap i).children →
      some j ∈ (getNode st.heap i').children → i = i') := by
  obtain ⟨t0, rest, init, tl, hsplit, ht0, HF, hroot, hpc⟩ := construct_inv base data st hok
  have ht0mem : t0 ∈ init ++ [tl] := hsplit ▸ List.mem_cons_self t0 rest
  have hattach : ∀ i j : Nat, some j ∈ (getNode st.heap i).children →
      parent st.heap (some j) = some (some i) := by
    intro i j hj
    by_cases hi : i < st.heap.length
    · have hiforest : i ∈ forestIdx (init ++ [tl]) := by
        have := (HF.cover.mem_iff (a := i)).mpr (List.mem_range.mpr hi)
        simpa using this
      obtain ⟨t, htmem, hiflat⟩ := mem_flat_of_mem_forest _ i hiforest
      obtain ⟨s, k, hb, hsidx⟩ := mem_flat_below t i hiflat
      have hsgood := below_goodTree hb (HF.good t htmem)
      cases s with
      | node si ss scs =>
        obtain ⟨g1, g2, g3⟩ := hsgood
        have hsi : si = i := hsidx
        subst hsi
        rw [g2] at hj
        obtain ⟨c, hc, hcj⟩ := List.mem_map.mp hj
        have hcj' : c.idx = j := Option.some.inj hcj
        have := (goodForest_mem g3 c hc).1
        show some ((getNode st.heap j).parent) = some (some si)
        rw [← hcj', this]
    · rw [getNode_out (by omega)] at hj
      cases hj
  refine ⟨rfl, ?_, hattach, ?_⟩
  · rw [hroot]
    show some ((getNode st.heap 0).parent) = some none
    have := HF.rootpar t0 ht0mem
    rw [ht0] at this
    rw [this]
  · intro i i' j hj hj'
    have h1 := hattach i j hj
    have h2 := hattach i' j hj'
    rw [h1] at h2
    exact Option.some.inj (Option.some.inj h2)

/-- Final state of `construct 0 [(1, "A")]`: `A` attached under the root. -/
def c4state : BuildState :=
  { heap := [⟨none, [some 1], some ⟨0, "ROOT"⟩⟩, ⟨some 0, [], some ⟨1, "A"⟩⟩]
  , root := some 0, size := 2, level_cursor := 1, position_cursor := some 1 }

/-- Witness for the amended C4 at a concrete one-heading build. -/
theorem parent_of_built_tree_characterization_witness :
    construct 0 [⟨1, "A"⟩] = .ok c4state ∧
    (parent c4state.heap none = none ∧
     parent c4state.heap c4state.root = some none ∧
     (∀ i j : Nat, some j ∈ (getNode c4state.heap i).children →
       parent c4state.heap (some j) = some (some i)) ∧
     (∀ i i' j : Nat, some j ∈ (getNode c4state.heap i).children →
       some j ∈ (getNode c4state.heap i').children → i = i')) :=
  ⟨rfl, parent_of_built_tree_characterization 0 [⟨1, "A"⟩] c4state rfl⟩

/-! ### Claim C8: depth and height laws on built trees -/

theorem t0_hnz {t0 : ITree} (h0 : t0.idx = 0) (hnd : t0.flatIdx.Nodup) :
    ∀ x ∈ forestIdx t0.children, x ≠ 0 := by
  cases t0 with
  | node z zs zcs =>
    intro x hx hx0
    have hz : z = 0 := h0
    have hnd' : (z :: forestIdx zcs).Nodup := hnd
    have := (List.nodup_cons.mp hnd').1
    exact this (by rw [← hz] at hx0; rw [← hx0]; exact hx)

theorem child_subtree {h : Heap} {t : ITree} (hg : goodTree h t) {i j : Nat}
    (hi : i ∈ t.flatIdx) (hj : some j ∈ (getNode h i).children) :
    ∃ s c k, BelowT t s k ∧ s.idx = i ∧ c.idx = j ∧ BelowT t c (k+1) := by
  obtain ⟨s, k, hb, hsidx⟩ := mem_flat_below t i hi
  have hsgood := below_goodTree hb hg
  cases s with
  | node si ss scs =>
    obtain ⟨g1, g2, g3⟩ := hsgood
    have hsi : si = i := hsidx
    subst hsi
    rw [g2] at hj
    obtain ⟨c, hc, hcj⟩ := List.mem_map.mp hj
    exact ⟨_, c, k, hb, rfl, Option.some.inj hcj,
      BelowT_snoc hb (show c ∈ (ITree.node si ss scs).children from hc)⟩

/-- Depth of a node of the arena-root tree: the climb reaches address 0 and
reports 1 plus the node's depth below the root. -/
theorem depth_in_t0 {h : Heap} {t0 s : ITree} {k : Nat} (hb : BelowT t0 s k)
    (hg : goodTree h t0) (h0 : t0.idx = 0) (hnd : t0.flatIdx.Nodup)
    (F : Nat) (hF : k + 1 ≤ F) :
    depthAux h (some 0) F (some s.idx) 1 = some (1 + k) := by
  have hnz := t0_hnz h0 hnd
  obtain ⟨f, rfl⟩ : ∃ f, F = f + k := ⟨F - k, by omega⟩
  rw [depth_climb hb hg hnz f 1, h0]
  obtain ⟨f', rfl⟩ : ∃ f', f = f' + 1 := ⟨f - 1, by omega⟩
  exact depthAux_root h f' (1 + k)

/-- Depth of a node of a lost tree (root not at address 0): the climb tops out
at a parentless non-root node and `_depth` returns nothing. -/
theorem depth_in_lost {h : Heap} {tx s : ITree} {k : Nat} (hb : BelowT tx s k)
    (hg : goodTree h tx) (hrootx : (getNode h tx.idx).parent = none)
    (hnz : ∀ x ∈ tx.flatIdx, x ≠ 0) (F : Nat) (hF : k + 2 ≤ F) :
    depthAux h (some 0) F (some s.idx) 1 = none := by
  have hnzc : ∀ x ∈ forestIdx tx.children, x ≠ 0 := by
    intro x hx
    refine hnz x ?_
    cases tx with
    | node a b c => exact List.mem_cons_of_mem _ hx
  obtain ⟨f, rfl⟩ : ∃ f, F = f + k := ⟨F - k, by omega⟩
  rw [depth_climb hb hg hnzc f 1]
  obtain ⟨f', rfl⟩ : ∃ f', f = f' + 2 := ⟨f - 2, by omega⟩
  exact depthAux_lost h (hnz tx.idx (idx_mem_flat tx)) hrootx f' (1 + k)

/-- C8. On every tree the builder returns, with fuel covering the arena:
`_depth(root) = 1`; for every stored parent/child pair the child's depth is the
parent's plus one (as `Option.map`, both being absent on a node of a lost
subtree); `_height` of every childless node is 1; and `_height(root)` is 1 plus
the running maximum of the root's children's heights. -/
theorem depth_height_invariants (base : Nat) (data : List Heading) (st : BuildState)
    (hok : construct base data = .ok st) :
    depthOf st.heap st.root (st.heap.length + 2) st.root = some 1 ∧
    (∀ i j : Nat, some j ∈ (getNode st.heap i).children →
      depthOf st.heap st.root (st.heap.length + 2) (some j)
        = (depthOf st.heap st.root (st.heap.length + 2) (some i)).map (· + 1)) ∧
    (∀ n : Nat, (getNode st.heap n).children = [] →
      heightOf st.heap (st.heap.length + 2) (some n) = some 1) ∧
    (∃ hs : List Nat,
      List.Forall₂ (fun p v => heightOf st.heap (st.heap.length + 1) p = some v)
        (childrenOf st.heap st.root) hs ∧
      heightOf st.heap (st.heap.length + 2) st.root = some (1 + hs.foldl max 0)) := by
  obtain ⟨t0, rest, init, tl, hsplit, ht0, HF, hroot, hpc⟩ := construct_inv base data st hok
  rw [← hsplit] at HF
  have ht0mem : t0 ∈ t0 :: rest := List.mem_cons_self t0 rest
  have hnd : (t0.flatIdx ++ forestIdx rest).Nodup := by
    have := HF.nodupAll
    simpa [forestIdx] using this
  have hndt0 : t0.flatIdx.Nodup := (List.nodup_append.mp hnd).1
  have hlenf : (forestIdx (t0 :: rest)).length = st.heap.length := by
    have := HF.cover.length_eq
    simpa using this
  have hflen0 : t0.flatIdx.length ≤ st.heap.length := by
    have := flat_len_le_forest ht0mem
    omega
  have hg0 : goodTree st.heap t0 := HF.good t0 ht0mem
  refine ⟨?_, ?_, ?_, ?_⟩
  · -- depth of the root is 1
    rw [hroot]
    exact depthAux_root st.heap (st.heap.length + 1) 1
  · -- child depth is parent depth plus one
    intro i j hj
    by_cases hi : i < st.heap.length
    · have hiforest : i ∈ forestIdx (t0 :: rest) := by
        have := (HF.cover.mem_iff (a := i)).mpr (List.mem_range.mpr hi)
        simpa using this
      rw [hroot]
      rcases List.mem_append.mp (show i ∈ t0.flatIdx ++ forestIdx rest from by
        simpa [forestIdx] using hiforest) with hcase | hcase
      · -- inside the arena-root tree
        obtain ⟨s, c, k, hb, hsidx, hcidx, hcb⟩ := child_subtree hg0 hcase hj
        have hkb : k + 1 ≤ t0.flatIdx.length := by
          have := below_len hb
          have := flat_len_pos s
          omega
        have hdi : depthAux st.heap (some 0) (st.heap.length + 2) (some i) 1
            = some (1 + k) := by
          rw [← hsidx]
          exact depth_in_t0 hb hg0 ht0 hndt0 _ (by omega)
        have hdj : depthAux st.heap (some 0) (st.heap.length + 2) (some j) 1
            = some (1 + (k + 1)) := by
          rw [← hcidx]
          exact depth_in_t0 hcb hg0 ht0 hndt0 _ (by omega)
        show depthAux st.heap (some 0) (st.heap.length + 2) (some j) 1
          = (depthAux st.heap (some 0) (st.heap.length + 2) (some i) 1).map (· + 1)
        rw [hdi, hdj]
        rfl
      · -- inside a lost tree: both depths are absent
        obtain ⟨tx, htxmem, hiflat⟩ := mem_flat_of_mem_forest rest i hcase
        have htxgood : goodTree st.heap tx := HF.good tx (List.mem_cons_of_mem _ htxmem)
        have htxroot : (getNode st.heap tx.idx).parent = none :=
          HF.rootpar tx (List.mem_cons_of_mem _ htxmem)
        have hnzx : ∀ x ∈ tx.flatIdx, x ≠ 0 := by
          intro x hx hx0
          have hxf : x ∈ forestIdx rest := mem_forestIdx_of_mem_flat htxmem x hx
          have h00 : (0 : Nat) ∈ t0.flatIdx := ht0 ▸ idx_mem_flat t0
          exact (List.nodup_append.mp hnd).2.2 h00 (hx0 ▸ hxf)
        obtain ⟨s, c, k, hb, hsidx, hcidx, hcb⟩ := child_subtree htxgood hiflat hj
        have hkb : k + 1 ≤ tx.flatIdx.length := by
          have := below_len hb
          have := flat_len_pos s
          omega
        have hflenx : tx.flatIdx.length ≤ st.heap.length := by
          have h1 := flat_len_le_forest htxmem
          have h2 : (forestIdx (t0 :: rest)).length
              = t0.flatIdx.length + (forestIdx rest).length := by
            show (t0.flatIdx ++ forestIdx rest).length = _
            simp
          have := flat_len_pos t0
          omega
        have hdi : depthAux st.heap (some 0) (st.heap.length + 2) (some i) 1 = none := by
          rw [← hsidx]
          exact depth_in_lost hb htxgood htxroot hnzx _ (by omega)
        have hdj : depthAux st.heap (some 0) (st.heap.length + 2) (some j) 1 = none := by
          rw [← hcidx]
          exact depth_in_lost hcb htxgood htxroot hnzx _ (by omega)
        show depthAux st.heap (some 0) (st.heap.length + 2) (some j) 1
          = (depthAux st.heap (some 0) (st.heap.length + 2) (some i) 1).map (· + 1)
        rw [hdi, hdj]
        rfl
    · rw [getNode_out (by omega)] at hj
      cases hj
  · -- childless nodes have height 1
    intro n hn
    show heightOf st.heap (st.heap.length + 1 + 1) (some n) = some 1
    rw [heightOf_step, hn, heightFold_nil]
  · -- the root's height is 1 plus the maximum over its children
    cases ht0c : t0 with
    | node z zs zcs =>
      have hz : z = 0 := by rw [ht0c] at ht0; exact ht0
      subst hz
      rw [ht0c] at hg0
      obtain ⟨g1, g2, g3⟩ := hg0
      have hchild : ∀ c ∈ zcs, heightOf st.heap (st.heap.length + 1) (some c.idx)
          = some c.ht := by
        intro c hc
        refine heightOf_good c st.heap (goodForest_mem g3 c hc).2 _ ?_
        have h1 := flat_len_le_forest hc
        have h2 : (ITree.node 0 zs zcs).flatIdx.length = 1 + (forestIdx zcs).length := by
          show (0 :: forestIdx zcs).length = _
          simp
          omega
        rw [ht0c] at hflen0
        omega
      refine ⟨zcs.map ITree.ht, ?_, ?_⟩
      · rw [hroot]
        show List.Forall₂ _ (childrenOf st.heap (some 0)) _
        have hco : childrenOf st.heap (some 0) = childIdxs zcs := by
          show (getNode st.heap 0).children = _
          exact g2
        rw [hco]
        exact heightFold_forall₂ st.heap _ zcs hchild
      · rw [hroot]
        have hh := heightOf_good (ITree.node 0 zs zcs) st.heap ⟨g1, g2, g3⟩
          (st.heap.length + 2) (by rw [ht0c] at hflen0; omega)
        have hidx : (ITree.node 0 zs zcs).idx = 0 := rfl
        rw [hidx] at hh
        rw [hh]
        show some ((ITree.node 0 zs zcs).ht) = _
        rw [show (ITree.node 0 zs zcs).ht = htsAcc zcs 0 + 1 from rfl, ← htsAcc_foldl]
        rw [Nat.add_comm]

/-- Final state of `construct 0 [(1, "B")]`: `B` attached under the root. -/
def c8state : BuildState :=
  { heap := [⟨none, [some 1], some ⟨0, "ROOT"⟩⟩, ⟨some 0, [], some ⟨1, "B"⟩⟩]
  , root := some 0, size := 2, level_cursor := 1, position_cursor := some 1 }

/-- Witness for C8 at a concrete one-heading build. -/
theorem depth_height_invariants_witness :
    construct 0 [⟨1, "B"⟩] = .ok c8state ∧
    (depthOf c8state.heap c8state.root (c8state.heap.length + 2) c8state.root = some 1 ∧
    (∀ i j : Nat, some j ∈ (getNode c8state.heap i).children →
      depthOf c8state.heap c8state.root (c8state.heap.length + 2) (some j)
        = (depthOf c8state.heap c8state.root (c8state.heap.length + 2) (some i)).map
            (· + 1)) ∧
    (∀ n : Nat, (getNode c8state.heap n).children = [] →
      heightOf c8state.heap (c8state.heap.length + 2) (some n) = some 1) ∧
    (∃ hs : List Nat,
      List.Forall₂ (fun p v => heightOf c8state.heap (c8state.heap.length + 1) p = some v)
        (childrenOf c8state.heap c8state.root) hs ∧
      heightOf c8state.heap (c8state.heap.length + 2) c8state.root
        = some (1 + hs.foldl max 0))) :=
  ⟨rfl, depth_height_invariants 0 [⟨1, "B"⟩] c8state rfl⟩

/-! ### Claim C7: what rendering a gap-free build really yields -/

theorem preorderAux_nil (h : Heap) (fuel : Nat) (pfx : String) :
    preorderAux h fuel [] pfx = [] := by
  simp [preorderAux]

theorem preorderAux_single (h : Heap) (f : Nat) (e : Pos) (pfx : String) :
    preorderAux h (f+1) [e] pfx
      = ("\t" ++ pfx ++ "└── " ++ childTitle h e)
        :: preorderAux h f (childrenOf h e) (pfx ++ "    ") := by
  simp [preorderAux]

theorem preorderAux_cons (h : Heap) (f : Nat) (e e2 : Pos) (rest : List Pos)
    (pfx : String) :
    preorderAux h (f+1) (e :: e2 :: rest) pfx
      = (("\t" ++ pfx ++ "├── " ++ childTitle h e)
          :: preorderAux h f (childrenOf h e) (pfx ++ "│   "))
        ++ preorderAux h (f+1) (e2 :: rest) pfx := by
  simp [preorderAux]

theorem htsAcc_mono : ∀ (cs : List ITree) {a b : Nat}, a ≤ b →
    htsAcc cs a ≤ htsAcc cs b := by
  intro cs
  induction cs with
  | nil => intro a b hab; exact hab
  | cons c cs1 ih =>
    intro a b hab
    show htsAcc cs1 (max a c.ht) ≤ htsAcc cs1 (max b c.ht)
    exact ih (by omega)

theorem ht_node (i : Nat) (s : String) (cs : List ITree) :
    (ITree.node i s cs).ht = htsAcc cs 0 + 1 := by
  simp [ITree.ht]

theorem flatTitles_node (i : Nat) (s : String) (cs : List ITree) :
    (ITree.node i s cs).flatTitles = s :: forestTitles cs := by
  simp [ITree.flatTitles]

/-- The preorder listing of a faithfully mirrored forest is exactly one line
per mirrored node, in preorder, each line some prefix followed by the node's
title. -/
theorem preorderAux_shaped (h : Heap) : ∀ (fuel : Nat) (cs : List ITree) (pfx : String),
    (∀ c ∈ cs, goodTree h c) → htsAcc cs 0 ≤ fuel →
    List.Forall₂ (fun ln t => ∃ pre, ln = pre ++ t)
      (preorderAux h fuel (childIdxs cs) pfx) (forestTitles cs) := by
  intro fuel
  induction fuel with
  | zero =>
    intro cs pfx hg hf
    cases cs with
    | nil =>
      rw [show childIdxs [] = [] from rfl, preorderAux_nil]
      exact List.Forall₂.nil
    | cons c cs1 =>
      exfalso
      have h1 := ht_child_le (List.mem_cons_self c cs1) 0
      have h2 := ht_pos c
      omega
  | succ f ihf =>
    intro cs pfx hg hf
    induction cs with
    | nil =>
      rw [show childIdxs [] = [] from rfl, preorderAux_nil]
      exact List.Forall₂.nil
    | cons c cs1 ihcs =>
      have hcgood : goodTree h c := hg c (List.mem_cons_self _ _)
      obtain ⟨ci, cst, ccs, rfl⟩ : ∃ ci cst ccs, c = ITree.node ci cst ccs := by
        cases c with
        | node a b d => exact ⟨a, b, d, rfl⟩
      obtain ⟨g1, g2, g3⟩ := hcgood
      obtain ⟨d, hd, hdt⟩ := Option.map_eq_some'.mp g1
      have hct : childTitle h (some ci) = cst := by
        show (match get h (some ci) with | some d => d.title | none => "") = cst
        show (match (getNode h ci).data with | some d => d.title | none => "") = cst
        rw [hd]
        exact hdt
      have hcch : childrenOf h (some ci) = childIdxs ccs := g2
      have hccgood : ∀ x ∈ ccs, goodTree h x := fun x hx => (goodForest_mem g3 x hx).2
      have hcht : htsAcc ccs 0 ≤ f := by
        have h1 := ht_child_le (List.mem_cons_self (ITree.node ci cst ccs) cs1) 0
        rw [ht_node] at h1
        omega
      have hft : forestTitles (ITree.node ci cst ccs :: cs1)
          = (cst :: forestTitles ccs) ++ forestTitles cs1 := by
        show (ITree.node ci cst ccs).flatTitles ++ forestTitles cs1 = _
        rw [flatTitles_node]
      cases cs1 with
      | nil =>
        rw [show childIdxs [ITree.node ci cst ccs] = [some ci] from rfl,
          preorderAux_single, hct, hcch, hft]
        refine List.Forall₂.cons ⟨"\t" ++ pfx ++ "└── ", rfl⟩ ?_
        rw [show forestTitles ([] : List ITree) = [] from rfl]
        simp only [List.append_eq, List.append_nil]
        exact ihf ccs (pfx ++ "    ") hccgood hcht
      | cons c2 cs2 =>
        rw [show childIdxs (ITree.node ci cst ccs :: c2 :: cs2)
            = some ci :: some c2.idx :: childIdxs cs2 from rfl,
          preorderAux_cons, hct, hcch, hft]
        refine List.rel_append
          (List.Forall₂.cons ⟨"\t" ++ pfx ++ "├── ", rfl⟩
            (ihf ccs (pfx ++ "│   ") hccgood hcht)) ?_
        have hrest := ihcs (fun x hx => hg x (List.mem_cons_of_mem _ hx)) ?_
        · rw [show childIdxs (c2 :: cs2) = some c2.idx :: childIdxs cs2 from rfl] at hrest
          exact hrest
        · have hmono : htsAcc (c2 :: cs2) 0
              ≤ htsAcc (c2 :: cs2) (max 0 (ITree.node ci cst ccs).ht) :=
            htsAcc_mono _ (by omega)
          have : htsAcc (ITree.node ci cst ccs :: c2 :: cs2) 0
              = htsAcc (c2 :: cs2) (max 0 (ITree.node ci cst ccs).ht) := rfl
          omega

/-- Final state of `construct 0 [(1, "A")]`, for the C7 counterexample. -/
def c7state : BuildState :=
  { heap := [⟨none, [some 1], some ⟨0, "ROOT"⟩⟩, ⟨some 0, [], some ⟨1, "A"⟩⟩]
  , root := some 0, size := 2, level_cursor := 1, position_cursor := some 1 }

/-- C7 counterexample. The gap-free, drop-free input `[(1, "A")]` renders as
four lines — banner, `│` guide line, the heading line, and a closing blank
line — not as one line per heading plus the name line (which would be two). -/
theorem render_has_guide_and_blank_lines :
    construct 0 [⟨1, "A"⟩] = .ok c7state ∧
    pretty_print c7state.heap c7state.heap.length "doc" c7state.root
      = ["📄 doc", "\t│", "\t└── A", ""] ∧
    (pretty_print c7state.heap c7state.heap.length "doc" c7state.root).length
      ≠ [(⟨1, "A"⟩ : Heading)].length + 1 := by
  have hpp : pretty_print c7state.heap c7state.heap.length "doc" c7state.root
      = ["📄 doc", "\t│", "\t└── A", ""] := by
    show pretty_print c7state.heap 2 "doc" (some 0) = _
    rw [show pretty_print c7state.heap 2 "doc" (some 0)
        = ("📄 " ++ "doc") :: "\t│" :: (preorder c7state.heap 2 (some 0) "" ++ [""])
      from rfl]
    rw [show preorder c7state.heap 2 (some 0) ""
        = preorderAux c7state.heap 2 [some 1] "" from rfl]
    rw [show (2 : Nat) = 1 + 1 from rfl, preorderAux_single]
    rw [show childrenOf c7state.heap (some 1) = [] from rfl, preorderAux_nil]
    rfl
  exact ⟨rfl, hpp, by rw [hpp]; decide⟩

/-- The stronger invariant available on gap-free, drop-free inputs: the arena
is one faithfully mirrored tree rooted at the arena root, whose preorder title
list is `"ROOT"` followed by the processed headings' titles in input order, and
whose rightmost-path length tracks the level cursor. -/
def OrdInv (base : Nat) (done : List Heading) (st : BuildState) : Prop :=
  ∃ t : ITree, ForestSt st.heap [t] [] ∧ t.idx = 0 ∧
    t.flatTitles = "ROOT" :: done.map Heading.title ∧
    st.root = some 0 ∧
    st.position_cursor = some (rlast t) ∧
    st.level_cursor + 1 = base + t.rpath.length

theorem ordInv_init (base : Nat) : OrdInv base [] (initState base) := by
  refine ⟨ITree.node 0 "ROOT" [], ⟨?_, ?_, ?_⟩, rfl, ?_, rfl, ?_, ?_⟩
  · intro t ht
    have : t = ITree.node 0 "ROOT" [] := by simpa using ht
    subst this
    exact ⟨rfl, rfl, trivial⟩
  · intro t ht
    have : t = ITree.node 0 "ROOT" [] := by simpa using ht
    subst this
    rfl
  · show (forestIdx [ITree.node 0 "ROOT" []] ++ []).Perm
      (List.range (initState base).heap.length)
    simp [forestIdx, ITree.flatIdx, initState, List.range_succ]
  · rw [flatTitles_node]
    rfl
  · show some 0 = some (rlast (ITree.node 0 "ROOT" []))
    rw [rlast_leaf]
  · show base + 1 = base + (ITree.node 0 "ROOT" []).rpath.length
    rfl

/-- Within the gap-free precondition, one builder step succeeds, attaches the
heading inside the single tree as the new deepest rightmost node, and keeps the
ordered invariant. -/
theorem ordInv_step (base : Nat) (done : List Heading) (st : BuildState) (e : Heading)
    (hinv : OrdInv base done st) (hlow : base + 1 ≤ e.level)
    (hhigh : e.level ≤ st.level_cursor + 1) :
    ∃ st', constructStep st e = .ok st' ∧ st'.level_cursor = e.level ∧
      OrdInv base (done ++ [e]) st' := by
  obtain ⟨t, HF, htidx, httl, hroot, hpc, hlc⟩ := hinv
  have htmem : t ∈ ([] : List ITree) ++ [t] := by simp
  have hdq : t.rpath.length - 1 < t.rpath.length := by
    have := rpath_len_pos t
    omega
  have hrl : rlast t = rpathD t (t.rpath.length - 1) := rfl
  have hrlflat : rlast t ∈ t.flatIdx := by
    rw [hrl]
    exact rpath_sub_flat t _ (rpathD_mem hdq)
  have hrllt : rlast t < st.heap.length :=
    HF.mem_lt _ (List.mem_append_left _ (mem_forestIdx_of_mem_flat htmem _ hrlflat))
  have Hal : ForestSt (st.heap ++ [⟨none, [], some e⟩]) (([] : List ITree) ++ [t])
      [st.heap.length] := by
    have := allocFloat HF (some e)
    rwa [List.nil_append] at this
  have hLnode : getNode (st.heap ++ [⟨none, [], some e⟩]) st.heap.length
      = ⟨none, [], some e⟩ := getNode_append_self _ _
  have httl' : ∀ dq : Nat, dq < t.rpath.length →
      (attachRight t dq st.heap.length e.title).flatTitles
        = "ROOT" :: (done ++ [e]).map Heading.title := by
    intro dq hdq'
    rw [(attachRight_spec dq t _ _ hdq').2.1, httl, List.map_append]
    rfl
  by_cases h1 : e.level = st.level_cursor + 1
  · -- child case
    obtain ⟨F1, F2, F3, F4⟩ := attachFloat (L := st.heap.length)
      st.size Hal (by simp) hLnode hdq
    rw [show ([st.heap.length].erase st.heap.length) = [] by simp] at F1
    have hget : get (add_child (st.heap ++ [⟨none, [], some e⟩]) st.size
        (some (rpathD t (t.rpath.length - 1))) (some st.heap.length)).1
        (some st.heap.length) = some e := by
      show (getNode (add_child (st.heap ++ [⟨none, [], some e⟩]) st.size
        (some (rpathD t (t.rpath.length - 1))) (some st.heap.length)).1
        st.heap.length).data = some e
      rw [F4]
    refine ⟨BuildState.mk
      (add_child (st.heap ++ [⟨none, [], some e⟩]) st.size
        (some (rpathD t (t.rpath.length - 1))) (some st.heap.length)).1
      st.root
      (add_child (st.heap ++ [⟨none, [], some e⟩]) st.size
        (some (rpathD t (t.rpath.length - 1))) (some st.heap.length)).2
      e.level (some st.heap.length), ?_, rfl, ?_⟩
    · rw [constructStep_child st e h1]
      simp only [alloc]
      rw [hpc, show rlast t = rpathD t (t.rpath.length - 1) from rfl]
      rw [hget]
    · refine ⟨attachRight t (t.rpath.length - 1) st.heap.length e.title,
        F1, ?_, httl' _ hdq, hroot, ?_, ?_⟩
      · rw [(attachRight_spec _ t _ _ hdq).2.2.2, htidx]
      · show some st.heap.length = some (rlast _)
        rw [rlast_attach t _ _ _ hdq]
      · show e.level + 1 = base + _
        rw [(attachRight_spec _ t _ _ hdq).2.2.1]
        have hlen : (t.rpath.take (t.rpath.length - 1 + 1) ++ [st.heap.length]).length
            = t.rpath.length + 1 := by
          simp
          omega
        rw [hlen]
        omega
  · by_cases h3 : e.level = st.level_cursor
    · -- sibling case: the tree has depth at least two here
      have hLr : 2 ≤ t.rpath.length := by omega
      have hdq2 : t.rpath.length - 2 < t.rpath.length := by omega
      have hchain : (getNode st.heap (rpathD t (t.rpath.length - 1))).parent
          = some (rpathD t (t.rpath.length - 2)) := by
        have := rpath_parent_chain t st.heap (HF.good t htmem)
          (t.rpath.length - 2) (by omega)
        rwa [show t.rpath.length - 2 + 1 = t.rpath.length - 1 by omega] at this
      have hparfield : (getNode (st.heap ++ [⟨none, [], some e⟩]) (rlast t)).parent
          = some (rpathD t (t.rpath.length - 2)) := by
        rw [getNode_append_lt _ hrllt, hrl, hchain]
      obtain ⟨F1, F2, F3, F4⟩ := attachFloat (L := st.heap.length)
        st.size Hal (by simp) hLnode hdq2
      rw [show ([st.heap.length].erase st.heap.length) = [] by simp] at F1
      refine ⟨BuildState.mk
        (add_child (st.heap ++ [⟨none, [], some e⟩]) st.size
          (some (rpathD t (t.rpath.length - 2))) (some st.heap.length)).1
        st.root
        (add_child (st.heap ++ [⟨none, [], some e⟩]) st.size
          (some (rpathD t (t.rpath.length - 2))) (some st.heap.length)).2
        st.level_cursor (some st.heap.length), ?_, ?_, ?_⟩
      · rw [constructStep_sibling st e h3]
        simp only [alloc]
        rw [hpc]
        simp only [parent]
        rw [hparfield]
      · show st.level_cursor = e.level
        omega
      · refine ⟨attachRight t (t.rpath.length - 2) st.heap.length e.title,
          F1, ?_, httl' _ hdq2, hroot, ?_, ?_⟩
        · rw [(attachRight_spec _ t _ _ hdq2).2.2.2, htidx]
        · show some st.heap.length = some (rlast _)
          rw [rlast_attach t _ _ _ hdq2]
        · show st.level_cursor + 1 = base + _
          rw [(attachRight_spec _ t _ _ hdq2).2.2.1]
          have hlen : (t.rpath.take (t.rpath.length - 2 + 1) ++ [st.heap.length]).length
              = t.rpath.length := by
            simp
            omega
          rw [hlen]
          omega
    · -- ascend case, target strictly inside the tree
      have h4 : e.level < st.level_cursor := by omega
      have hLr : 2 ≤ t.rpath.length := by omega
      have hdiff : st.level_cursor - e.level ≤ t.rpath.length - 2 := by omega
      have hdq3 : t.rpath.length - 2 - (st.level_cursor - e.level) < t.rpath.length := by
        omega
      have hchain : (getNode st.heap (rpathD t (t.rpath.length - 1))).parent
          = some (rpathD t (t.rpath.length - 2)) := by
        have := rpath_parent_chain t st.heap (HF.good t htmem)
          (t.rpath.length - 2) (by omega)
        rwa [show t.rpath.length - 2 + 1 = t.rpath.length - 1 by omega] at this
      have hparfield : (getNode (st.heap ++ [⟨none, [], some e⟩]) (rlast t)).parent
          = some (rpathD t (t.rpath.length - 2)) := by
        rw [getNode_append_lt _ hrllt, hrl, hchain]
      have hasc := ascendLoop_rpath (st.heap ++ [⟨none, [], some e⟩]) t
        (Hal.good t htmem) (st.level_cursor - e.level) (t.rpath.length - 2)
        st.level_cursor hdiff (by omega)
      obtain ⟨F1, F2, F3, F4⟩ := attachFloat (L := st.heap.length)
        st.size
        Hal (by simp) hLnode hdq3
      rw [show ([st.heap.length].erase st.heap.length) = [] by simp] at F1
      have hget : get (add_child (st.heap ++ [⟨none, [], some e⟩]) st.size
          (some (rpathD t (t.rpath.length - 2 - (st.level_cursor - e.level))))
          (some st.heap.length)).1 (some st.heap.length) = some e := by
        show (getNode (add_child (st.heap ++ [⟨none, [], some e⟩]) st.size
          (some (rpathD t (t.rpath.length - 2 - (st.level_cursor - e.level))))
          (some st.heap.length)).1 st.heap.length).data = some e
        rw [F4]
      refine ⟨BuildState.mk
        (add_child (st.heap ++ [⟨none, [], some e⟩]) st.size
          (some (rpathD t (t.rpath.length - 2 - (st.level_cursor - e.level))))
          (some st.heap.length)).1
        st.root
        (add_child (st.heap ++ [⟨none, [], some e⟩]) st.size
          (some (rpathD t (t.rpath.length - 2 - (st.level_cursor - e.level))))
          (some st.heap.length)).2
        e.level (some st.heap.length), ?_, rfl, ?_⟩
      · rw [constructStep_ascend st e h4]
        simp only [alloc]
        rw [hpc]
        simp only [parent]
        rw [hparfield]
        simp only [hasc]
        rw [hget]
      · refine ⟨attachRight t (t.rpath.length - 2 - (st.level_cursor - e.level))
          st.heap.length e.title, F1, ?_, httl' _ hdq3, hroot, ?_, ?_⟩
        · rw [(attachRight_spec _ t _ _ hdq3).2.2.2, htidx]
        · show some st.heap.length = some (rlast _)
          rw [rlast_attach t _ _ _ hdq3]
        · show e.level + 1 = base + _
          rw [(attachRight_spec _ t _ _ hdq3).2.2.1]
          have hlen : (t.rpath.take (t.rpath.length - 2 - (st.level_cursor - e.level) + 1)
              ++ [st.heap.length]).length
              = t.rpath.length - 2 - (st.level_cursor - e.level) + 2 := by
            simp
            omega
          rw [hlen]
          omega

/-- The whole builder loop on a gap-free, drop-free remainder. -/
theorem constructGo_ord (data : List Heading) : ∀ (base : Nat) (done : List Heading)
    (st : BuildState), OrdInv base done st →
    validLevels base st.level_cursor data = true →
    ∃ st', constructGo st data = .ok st' ∧ OrdInv base (done ++ data) st' := by
  induction data with
  | nil =>
    intro base done st hinv _
    exact ⟨st, rfl, by simpa using hinv⟩
  | cons e rest ih =>
    intro base done st hinv hval
    simp only [validLevels, Bool.and_eq_true, decide_eq_true_eq] at hval
    obtain ⟨⟨h1, h2⟩, h3⟩ := hval
    obtain ⟨st1, hstep, hlc1, hinv1⟩ := ordInv_step base done st e hinv h1 h2
    obtain ⟨st', hgo, hinv'⟩ := ih base (done ++ [e]) st1 hinv1 (by rw [hlc1]; exact h3)
    refine ⟨st', ?_, ?_⟩
    · simp only [constructGo]
      rw [hstep]
      exact hgo
    · rwa [List.append_assoc, List.singleton_append] at hinv'

theorem forall₂_map_right {α β γ : Type} {R : α → γ → Prop} {f : β → γ} :
    ∀ {u : List β} {l : List α}, List.Forall₂ R l (u.map f) →
    List.Forall₂ (fun a b => R a (f b)) l u := by
  intro u
  induction u with
  | nil =>
    intro l h
    cases h
    exact .nil
  | cons b u' ih =>
    intro l h
    cases h with
    | cons hr ht => exact .cons hr (ih ht)

/-- C7 (amended). For a non-empty input with no level gaps and no drops below
`base_level + 1`, the build succeeds and rendering it yields the document name
line, a `│` guide line, then exactly one line per input heading — each a
connector prefix followed by that heading's title, in input order — and a
closing blank line. -/
theorem render_matches_input_lines (base : Nat) (data : List Heading) (name : String)
    (hval : validLevels base base data = true) (hne : data ≠ []) :
    ∃ st, construct base data = .ok st ∧
      ∃ L : List String,
        pretty_print st.heap st.heap.length name st.root
          = ("📄 " ++ name) :: "\t│" :: (L ++ [""]) ∧
        List.Forall₂ (fun ln (e : Heading) => ∃ pre, ln = pre ++ e.title) L data := by
  obtain ⟨st, hgo, hinv⟩ := constructGo_ord data base [] (initState base)
    (ordInv_init base) hval
  refine ⟨st, hgo, ?_⟩
  obtain ⟨t, HF, htidx, httl, hroot, hpc, hlc⟩ := hinv
  rw [List.nil_append] at httl
  obtain ⟨z, zs, zcs, rfl⟩ : ∃ z zs zcs, t = ITree.node z zs zcs := by
    cases t with
    | node a b c => exact ⟨a, b, c, rfl⟩
  have hz : z = 0 := htidx
  subst hz
  have htmem : ITree.node 0 zs zcs ∈ [ITree.node 0 zs zcs] := List.mem_cons_self _ _
  obtain ⟨g1, g2, g3⟩ := HF.good _ htmem
  rw [flatTitles_node] at httl
  injection httl with hzs hforest
  have hzcs : zcs ≠ [] := by
    intro hc
    subst hc
    rw [show forestTitles ([] : List ITree) = [] from rfl] at hforest
    exact hne (List.map_eq_nil_iff.mp hforest.symm)
  have hlen : (ITree.node 0 zs zcs).flatIdx.length = st.heap.length := by
    have := HF.cover.length_eq
    simpa [forestIdx] using this
  have hfor_len : (forestIdx zcs).length + 1 = st.heap.length := by
    have h2 : (ITree.node 0 zs zcs).flatIdx.length = (forestIdx zcs).length + 1 := by
      show (0 :: forestIdx zcs).length = _
      simp
    omega
  have hfuel : htsAcc zcs 0 ≤ st.heap.length := by
    have h1 := htsAcc_le_len zcs (fun c _ => ht_le_flat_len c) 0
    rw [Nat.max_eq_right (Nat.zero_le _)] at h1
    omega
  have hch : (getNode st.heap 0).children = childIdxs zcs := g2
  have hchne : ¬ (getNode st.heap 0).children.length = 0 := by
    rw [hch]
    simpa [childIdxs, List.length_eq_zero] using hzcs
  rw [hroot]
  refine ⟨preorderAux st.heap st.heap.length (childIdxs zcs) "", ?_, ?_⟩
  · simp only [pretty_print]
    rw [if_neg hchne]
    simp only [preorder, childrenOf]
    rw [hch]
  · have hsh := preorderAux_shaped st.heap st.heap.length zcs ""
      (fun c hc => (goodForest_mem g3 c hc).2) hfuel
    rw [hforest] at hsh
    exact forall₂_map_right hsh

/-- Witness for the amended C7 at a concrete gap-free three-heading input. -/
theorem render_matches_input_lines_witness :
    validLevels 0 0 [(⟨1, "A"⟩ : Heading), ⟨2, "B"⟩, ⟨1, "C"⟩] = true ∧
    ([(⟨1, "A"⟩ : Heading), ⟨2, "B"⟩, ⟨1, "C"⟩] ≠ ([] : List Heading)) ∧
    (∃ st, construct 0 [(⟨1, "A"⟩ : Heading), ⟨2, "B"⟩, ⟨1, "C"⟩] = .ok st ∧
      ∃ L : List String,
        pretty_print st.heap st.heap.length "doc" st.root
          = ("📄 " ++ "doc") :: "\t│" :: (L ++ [""]) ∧
        List.Forall₂ (fun ln (e : Heading) => ∃ pre, ln = pre ++ e.title) L
          [(⟨1, "A"⟩ : Heading), ⟨2, "B"⟩, ⟨1, "C"⟩]) :=
  ⟨by decide, by decide,
    render_matches_input_lines 0 [⟨1, "A"⟩, ⟨2, "B"⟩, ⟨1, "C"⟩] "doc"
      (by decide) (by decide)⟩

end Mdtree
